import Mathlib

/-!
# startup.c (x01-echo): boot sequence, vector table, NVIC interface, memory primitives

A shallow embedding of `src/x01-echo/startup.c`.

* Addresses and `unsigned` values are natural numbers below `2 ^ 32`; pointer
  arithmetic is done modulo `2 ^ 32`, as the machine does it.
* Memory is a map from addresses to bytes (`Fin 256`).
* A `while (n-- > 0)` loop over an `unsigned n` is a recursion on `n`.
-/

namespace Startup

/-! ## Machine words, bytes and memory -/

/-- Size of the address space and modulus of `unsigned` arithmetic. -/
abbrev WORD : Nat := 2 ^ 32

/-- An `unsigned char`. -/
abbrev Byte := Fin 256

/-- Byte-addressed memory. -/
abbrev Mem := Nat → Byte

/-- The store `*p = v`. -/
def Mem.store (m : Mem) (p : Nat) (v : Byte) : Mem :=
  fun a => if a = p then v else m a

/-- Conversion of an `unsigned` to `unsigned char`: the low 8 bits. -/
def toByte (x : Nat) : Byte := ⟨x % 256, Nat.mod_lt x (by decide)⟩

/-- Pointer increment `p + k` on the 32-bit machine. -/
def ptrAdd (p k : Nat) : Nat := (p + k) % WORD

/-- Pointer decrement `p - 1` on the 32-bit machine. -/
def ptrPred (p : Nat) : Nat := (p + (WORD - 1)) % WORD

/-! ## Memory primitives (startup.c lines 21-66) -/

/-- The loop `while (n-- > 0) *p++ = *q++;` shared by `memcpy` and the
forward branch of `memmove`. -/
def copy_up : Nat → Nat → Nat → Mem → Mem
  | 0, _, _, m => m
  | n + 1, p, q, m => copy_up n (ptrAdd p 1) (ptrAdd q 1) (m.store p (m q))

/-- The loop `while (n-- > 0) *--p = *--q;` of the backward branch of `memmove`. -/
def copy_down : Nat → Nat → Nat → Mem → Mem
  | 0, _, _, m => m
  | n + 1, p, q, m =>
    copy_down n (ptrPred p) (ptrPred q) (m.store (ptrPred p) (m (ptrPred q)))

/-- The loop `while (n-- > 0) *p++ = x;` of `memset`. -/
def fill_up : Nat → Nat → Nat → Mem → Mem
  | 0, _, _, m => m
  | n + 1, p, x, m => fill_up n (ptrAdd p 1) x (m.store p (toByte x))

/-- `memcpy -- copy n bytes from src to dest (non-overlapping)`.
Returns the final memory and the returned pointer. -/
def memcpy (m : Mem) (dest src n : Nat) : Mem × Nat :=
  (copy_up n dest src m, dest)

/-- `memmove -- copy n bytes from src to dest, allowing overlaps`. -/
def memmove (m : Mem) (dest src n : Nat) : Mem × Nat :=
  if dest ≤ src then
    (copy_up n dest src m, dest)
  else
    (copy_down n (ptrAdd dest n) (ptrAdd src n) m, dest)

/-- `memset -- set n bytes of dest to byte x`. -/
def memset (m : Mem) (dest x n : Nat) : Mem × Nat :=
  (fill_up n dest x m, dest)

/-- The loop of `memcmp`: at each of the `n` remaining iterations the bytes
`*p++` and `*q++` are compared, and on a difference the function returns at
once, looking back at `p[-1]` and `q[-1]`. -/
def memcmp_loop : Nat → Nat → Nat → Mem → Int
  | 0, _, _, _ => 0
  | n + 1, p, q, m =>
    if m p ≠ m q then
      (if m (ptrPred (ptrAdd p 1)) < m (ptrPred (ptrAdd q 1)) then -1 else 1)
    else memcmp_loop n (ptrAdd p 1) (ptrAdd q 1) m

/-- `memcmp -- compare n bytes`; `n` is a signed `int`, so the loop
`while (n-- > 0)` runs `n` times when `n > 0` and not at all otherwise. -/
def memcmp (m : Mem) (pp qq : Nat) (n : Int) : Int :=
  memcmp_loop n.toNat pp qq m

/-! ## The memory primitives step by step -/

/-- One iteration of a copying loop: the address read, the address written
and the byte moved. -/
structure CopyStep where
  rd : Nat
  wr : Nat
  val : Byte
  deriving DecidableEq

/-- The iterations of the loop `while (n-- > 0) *p++ = *q++;` in order. -/
def copy_up_steps : Nat → Nat → Nat → Mem → List CopyStep
  | 0, _, _, _ => []
  | n + 1, p, q, m =>
    { rd := q, wr := p, val := m q } ::
      copy_up_steps n (ptrAdd p 1) (ptrAdd q 1) (m.store p (m q))

/-- The iterations of the loop `while (n-- > 0) *--p = *--q;` in order. -/
def copy_down_steps : Nat → Nat → Nat → Mem → List CopyStep
  | 0, _, _, _ => []
  | n + 1, p, q, m =>
    { rd := ptrPred q, wr := ptrPred p, val := m (ptrPred q) } ::
      copy_down_steps n (ptrPred p) (ptrPred q) (m.store (ptrPred p) (m (ptrPred q)))

/-- The iterations of `memmove` in order. -/
def memmove_steps (m : Mem) (dest src n : Nat) : List CopyStep :=
  if dest ≤ src then
    copy_up_steps n dest src m
  else
    copy_down_steps n (ptrAdd dest n) (ptrAdd src n) m

/-- An access to memory: a load from or a store to an address. -/
inductive Access where
  | load (a : Nat)
  | store (a : Nat)
  deriving DecidableEq

/-- The memory accesses of the loop of `memcmp` in order: `*p++` and `*q++` at
every iteration, and `p[-1]` and `q[-1]` when the two bytes differ. -/
def memcmp_loop_trace : Nat → Nat → Nat → Mem → List Access
  | 0, _, _, _ => []
  | n + 1, p, q, m =>
    Access.load p :: Access.load q ::
      (if m p ≠ m q then
        [Access.load (ptrPred (ptrAdd p 1)), Access.load (ptrPred (ptrAdd q 1))]
      else memcmp_loop_trace n (ptrAdd p 1) (ptrAdd q 1) m)

/-- The memory accesses of `memcmp` in order. -/
def memcmp_trace (m : Mem) (pp qq : Nat) (n : Int) : List Access :=
  memcmp_loop_trace n.toNat pp qq m

/-! ## Boot sequence (startup.c lines 68-87) -/

/-- Addresses set by the linker. -/
structure Layout where
  __data_start : Nat
  __data_end : Nat
  __bss_start : Nat
  __bss_end : Nat
  __etext : Nat
  __stack : Nat

/-- The value of type `int` (32-bit, twos-complement) congruent to `z`. -/
def toInt32 (z : Int) : Int := (z + 2 ^ 31) % 2 ^ 32 - 2 ^ 31

/-- Conversion of an `int` argument to an `unsigned` parameter. -/
def toUnsigned (z : Int) : Nat := (z % 2 ^ 32).toNat

/-- The operator `a & b` on 32-bit `int`s: the AND of the twos-complement bit
patterns. -/
def int_and (a b : Int) : Int :=
  toInt32 ((toUnsigned a &&& toUnsigned b : Nat) : Int)

/-- The operator `a >> s` on an `int`: an arithmetic shift, which keeps the sign. -/
def int_shr (a : Int) (s : Nat) : Int := Int.shiftRight a s

/-- Device registers that startup.c accesses. -/
inductive Reg where
  | CLOCK_HFCLKSTART
  | CLOCK_HFCLKSTARTED
  | SCB_SHPR (i : Nat)
  | NVIC_IPR (i : Nat)
  | NVIC_ISER (i : Nat)
  | NVIC_ICER (i : Nat)
  | NVIC_ICPR (i : Nat)
  | GPIO_DIR
  | GPIO_OUT
  | GPIO_DIRSET
  | GPIO_DIRCLR
  | GPIO_OUTSET
  | GPIO_OUTCLR
  | GPIO_IN
  | GPIO_PINCNF (i : Nat)
  deriving DecidableEq

/-- Observable actions of the code, in program order: accesses to volatile
device registers and the calls made by `__reset`. -/
inductive Event where
  | read (r : Reg) (v : Nat)
  | write (r : Reg) (v : Nat)
  | call_memcpy (dest src n : Nat)
  | call_memset (dest x n : Nat)
  | call_start
  | call_init
  | call_pause
  | call_intr_disable
  | call_delay_loop (usecs : Nat)
  deriving DecidableEq

/-- The loop `while (!CLOCK.HFCLKSTARTED) { }`.  The register is volatile and
set by the hardware: `ready k` is the value that the read number `k` returns.
The result is the list of reads made, the last of them non-zero; `none` when
the fuel runs out before the flag is seen. -/
def wait_clock (ready : Nat → Nat) : Nat → Nat → Option (List Event)
  | 0, _ => none
  | fuel + 1, k =>
    if ready k ≠ 0 then
      some [Event.read Reg.CLOCK_HFCLKSTARTED (ready k)]
    else
      (wait_clock ready fuel (k + 1)).map
        (fun evs => Event.read Reg.CLOCK_HFCLKSTARTED (ready k) :: evs)

/-- `__reset -- the system starts here`.  The result is the memory and the
actions performed at the moment `__start()` is called. -/
def __reset (L : Layout) (ready : Nat → Nat) (fuel : Nat) (m : Mem) :
    Option (Mem × List Event) :=
  match wait_clock ready fuel 0 with
  | none => none
  | some polls =>
    let data_size : Int := toInt32 ((L.__data_end : Int) - (L.__data_start : Int))
    let bss_size : Int := toInt32 ((L.__bss_end : Int) - (L.__bss_start : Int))
    let m1 := (memcpy m L.__data_start L.__etext (toUnsigned data_size)).1
    let m2 := (memset m1 L.__bss_start 0 (toUnsigned bss_size)).1
    some (m2,
      [Event.write Reg.CLOCK_HFCLKSTARTED 0, Event.write Reg.CLOCK_HFCLKSTART 1]
        ++ polls
        ++ [Event.call_memcpy L.__data_start L.__etext (toUnsigned data_size),
            Event.call_memset L.__bss_start 0 (toUnsigned bss_size),
            Event.call_start])

/-- Runs a routine given by its step function for at most `k` actions, from
the program point `pc`: the actions performed and the program point reached.
A program point without a step is one where the routine performs no further
action. -/
def run_steps {σ : Type} (step : σ → Option (Event × σ)) : Nat → σ → List Event × σ
  | 0, pc => ([], pc)
  | k + 1, pc =>
    match step pc with
    | none => ([], pc)
    | some (e, pc1) => (e :: (run_steps step k pc1).1, (run_steps step k pc1).2)

/-- Program points of `default_start`: before the call `init()`, inside a
call of `init` that does not return, at the head of `while (1) pause();`, and
after the closing brace of the function. -/
inductive StartPc where
  | entry
  | in_init
  | idle
  | returned
  deriving DecidableEq

/-- One action of `default_start`: `init();` then `while (1) pause();`.
Whether `init()` returns is a property of the application. -/
def default_start_step (init_returns : Bool) : StartPc → Option (Event × StartPc)
  | StartPc.entry => some (Event.call_init, if init_returns then StartPc.idle else StartPc.in_init)
  | StartPc.in_init => none
  | StartPc.idle => some (Event.call_pause, StartPc.idle)
  | StartPc.returned => none

/-! ## Delay loop and default handler (startup.c lines 176-203) -/

/-- The loop `while (t > 0) { nop(); nop(); nop(); t--; }` of `delay_loop`
on the `unsigned` counter `t`: the number of times the body has run when the
loop ends, `done` being the number of runs so far; `none` when the fuel runs
out first. -/
def delay_while : Nat → Nat → Nat → Option Nat
  | 0, _, _ => none
  | fuel + 1, t, done =>
    if t > 0 then delay_while fuel ((t + (WORD - 1)) % WORD) (done + 1) else some done

/-- `delay_loop -- timed delay`: `unsigned t = usecs << 1;` then the loop.
The result is the number of times the loop body runs. -/
def delay_loop (fuel usecs : Nat) : Option Nat :=
  delay_while fuel ((usecs <<< 1) % WORD) 0

/-- Program points of `spin`, one before each statement, and the point after
the closing brace of the function. -/
inductive SpinPc where
  | entry
  | set_dir
  | led_on
  | wait_on
  | led_off
  | wait_off
  | returned
  deriving DecidableEq

/-- One action of `spin -- show Seven Stars of Death`. -/
def spin_step : SpinPc → Option (Event × SpinPc)
  | SpinPc.entry => some (Event.call_intr_disable, SpinPc.set_dir)
  | SpinPc.set_dir => some (Event.write Reg.GPIO_DIR 0xfff0, SpinPc.led_on)
  | SpinPc.led_on => some (Event.write Reg.GPIO_OUT 0x4000, SpinPc.wait_on)
  | SpinPc.wait_on => some (Event.call_delay_loop 500000, SpinPc.led_off)
  | SpinPc.led_off => some (Event.write Reg.GPIO_OUT 0, SpinPc.wait_off)
  | SpinPc.wait_off => some (Event.call_delay_loop 100000, SpinPc.led_on)
  | SpinPc.returned => none

/-- The action number `k` of `spin`, counted from 0. -/
def spin_action (k : Nat) : Event :=
  if k = 0 then Event.call_intr_disable
  else if k = 1 then Event.write Reg.GPIO_DIR 0xfff0
  else if (k - 2) % 4 = 0 then Event.write Reg.GPIO_OUT 0x4000
  else if (k - 2) % 4 = 1 then Event.call_delay_loop 500000
  else if (k - 2) % 4 = 2 then Event.write Reg.GPIO_OUT 0
  else Event.call_delay_loop 100000

/-- The program point of `spin` after `k` actions. -/
def spin_pc (k : Nat) : SpinPc :=
  if k = 0 then SpinPc.entry
  else if k = 1 then SpinPc.set_dir
  else if (k - 2) % 4 = 0 then SpinPc.led_on
  else if (k - 2) % 4 = 1 then SpinPc.wait_on
  else if (k - 2) % 4 = 2 then SpinPc.led_off
  else SpinPc.wait_off

/-! ## Interrupt vectors (startup.c lines 203-260) -/

/-- The symbols that appear in the vector table. -/
inductive Sym where
  | __stack
  | __reset
  | nmi_handler
  | hardfault_handler
  | svc_handler
  | pendsv_handler
  | systick_handler
  | uart_handler
  | timer0_handler
  | timer1_handler
  | timer2_handler
  | power_clock_handler
  | radio_handler
  | i2c0_spi0_handler
  | i2c1_spi1_handler
  | gpiote_handler
  | adc_handler
  | rtc0_handler
  | temp_handler
  | rng_handler
  | ecb_handler
  | ccm_aar_handler
  | wdt_handler
  | rtc1_handler
  | qdec_handler
  | lpcomp_handler
  | swi0_handler
  | swi1_handler
  | swi2_handler
  | swi3_handler
  | swi4_handler
  | swi5_handler
  deriving DecidableEq

/-- The initialiser of `__vectors`, one element per source line: the entries
written on the line (`none` is the null entry `0`) and the index annotation
in the comment that ends the line, if there is one. -/
def vector_rows : List (List (Option Sym) × Option Int) :=
  [ ([some Sym.__stack], some (-16)),
    ([some Sym.__reset, some Sym.nmi_handler, some Sym.hardfault_handler, none], some (-12)),
    ([none, none, none, none], some (-8)),
    ([none, none, some Sym.svc_handler, none], some (-4)),
    ([none, some Sym.pendsv_handler, some Sym.systick_handler], none),
    -- external interrupts
    ([some Sym.power_clock_handler], some 0),
    ([some Sym.radio_handler, some Sym.uart_handler, some Sym.i2c0_spi0_handler], none),
    ([some Sym.i2c1_spi1_handler], some 4),
    ([none, some Sym.gpiote_handler, some Sym.adc_handler, some Sym.timer0_handler], some 8),
    ([some Sym.timer1_handler, some Sym.timer2_handler, some Sym.rtc0_handler, some Sym.temp_handler], some 12),
    ([some Sym.rng_handler, some Sym.ecb_handler, some Sym.ccm_aar_handler, some Sym.wdt_handler], some 16),
    ([some Sym.rtc1_handler, some Sym.qdec_handler, some Sym.lpcomp_handler, some Sym.swi0_handler], some 20),
    ([some Sym.swi1_handler, some Sym.swi2_handler, some Sym.swi3_handler, some Sym.swi4_handler], some 24),
    ([some Sym.swi5_handler, none, none, none], some 28),
    ([none, none, none], none) ]

/-- The vector table `__vectors`: the entries of the initialiser in order. -/
def __vectors : List (Option Sym) :=
  (vector_rows.map Prod.fst).flatten

/-- Slot index and annotation of the last entry of every annotated line of the
initialiser, computed by walking the lines from slot 0. -/
def annotated_slots : List (List (Option Sym) × Option Int) → Nat → List (Nat × Int)
  | [], _ => []
  | (entries, some a) :: rest, start =>
    (start + entries.length - 1, a) :: annotated_slots rest (start + entries.length)
  | (entries, none) :: rest, start => annotated_slots rest (start + entries.length)

/-- The handler names declared in startup.c (lines 208-237), in the order of
their declarations. -/
def handlers : List Sym :=
  [Sym.nmi_handler, Sym.hardfault_handler, Sym.svc_handler, Sym.pendsv_handler,
   Sym.systick_handler, Sym.uart_handler, Sym.timer0_handler, Sym.timer1_handler,
   Sym.timer2_handler, Sym.power_clock_handler, Sym.radio_handler,
   Sym.i2c0_spi0_handler, Sym.i2c1_spi1_handler, Sym.gpiote_handler, Sym.adc_handler,
   Sym.rtc0_handler, Sym.temp_handler, Sym.rng_handler, Sym.ecb_handler,
   Sym.ccm_aar_handler, Sym.wdt_handler, Sym.rtc1_handler, Sym.qdec_handler,
   Sym.lpcomp_handler, Sym.swi0_handler, Sym.swi1_handler, Sym.swi2_handler,
   Sym.swi3_handler, Sym.swi4_handler, Sym.swi5_handler]

/-- The address of `default_handler`, declared
`__attribute((weak, alias("spin")))`: the definition of the application if it
has one (`app_default`), the address of `spin` otherwise. -/
def default_handler_addr (app_default : Option Nat) (spin : Nat) : Nat :=
  match app_default with
  | some a => a
  | none => spin

/-- Modelled from the spec: the linker script, which is not among the sources,
"define[s] each handler name as an alias for default_handler if it is not
defined elsewhere"; `app h` is the address of the definition of `h` in the
application, if it has one. -/
def link_handler (app : Sym → Option Nat) (default_handler : Nat) (h : Sym) : Nat :=
  match app h with
  | some a => a
  | none => default_handler

/-- The contents of the vector table in the program image: 0 for a null entry,
the addresses of `__stack` and `__reset`, and the linked address of every
handler name. -/
def vector_image (app : Sym → Option Nat) (app_default : Option Nat)
    (spin stack reset : Nat) : List Nat :=
  __vectors.map (fun e =>
    match e with
    | none => 0
    | some Sym.__stack => stack
    | some Sym.__reset => reset
    | some h => link_handler app (default_handler_addr app_default spin) h)

/-- An application that defines `uart_handler` (at 0x2001) and nothing else. -/
def sample_app : Sym → Option Nat :=
  fun h => if h = Sym.uart_handler then some 0x2001 else none

/-! ## NVIC setup functions (startup.c lines 89-121) -/

/-- State of the system control block and the interrupt controller: the
priority words `SCB.SHPR[]` and `NVIC.IPR[]` (each list is the whole register
array), and the interrupt enable and pending states that the set/clear
registers act on. -/
structure Dev where
  SHPR : List Nat
  IPR : List Nat
  enabled : Nat
  pending : Nat
  deriving DecidableEq

/-- Modelled from the spec: the macro `SET_BYTE(reg, n, v)` of hardware.h, which
is not among the sources; it "writes the value into one byte lane of a
priority-register word".  This is the new value of the word `reg`: byte lane
`n` replaced by the low 8 bits of `v`. -/
def SET_BYTE (reg n v : Nat) : Nat :=
  (reg &&& (0xFFFFFFFF ^^^ (0xFF <<< (8 * n)))) ||| ((v &&& 0xFF) <<< (8 * n))

/-- Byte lane `k` of a word. -/
def byte_lane (w k : Nat) : Nat := (w >>> (8 * k)) &&& 0xFF

/-- Modelled from the spec: the macro `BIT(i)` of hardware.h, which is not among
the sources; the word in which "exactly one bit, corresponding to `line`" is
set.  The shift `1 << i` is defined for `0 <= i < 32` only. -/
def BIT (i : Int) : Option Nat :=
  if 0 ≤ i ∧ i < 32 then some (1 <<< i.toNat) else none

/-- The element `a[i]` of a register array, for a signed index: defined inside
the array only. -/
def word_at (a : List Nat) (i : Int) : Option Nat :=
  if 0 ≤ i then a[i.toNat]? else none

/-- Modelled from the spec: write-1-to-set behaviour of `NVIC.ISER[0]`; the new
enable state is the old one OR the written word. -/
def Dev.write_ISER0 (d : Dev) (v : Nat) : Dev :=
  { d with enabled := d.enabled ||| v }

/-- `irq_priority -- set priority for an IRQ to a value [0..255]`.  The result
is the new device state and the register accesses made; `none` when the
indexed word lies outside its register array. -/
def irq_priority (d : Dev) (irq : Int) (prio : Nat) : Option (Dev × List Event) :=
  if irq < 0 then
    let i : Int := int_shr (irq + 12) 2
    match word_at d.SHPR i with
    | none => none
    | some w =>
      let w1 := SET_BYTE w (int_and irq 0x3).toNat prio
      some ({ d with SHPR := d.SHPR.set i.toNat w1 },
        [Event.read (Reg.SCB_SHPR i.toNat) w, Event.write (Reg.SCB_SHPR i.toNat) w1])
  else
    let i : Int := int_shr irq 2
    match word_at d.IPR i with
    | none => none
    | some w =>
      let w1 := SET_BYTE w (int_and irq 0x3).toNat prio
      some ({ d with IPR := d.IPR.set i.toNat w1 },
        [Event.read (Reg.NVIC_IPR i.toNat) w, Event.write (Reg.NVIC_IPR i.toNat) w1])

/-- `enable_irq -- enable interrupts from an IRQ`: the single store
`NVIC.ISER[0] = BIT(irq)`. -/
def enable_irq (d : Dev) (irq : Int) : Option (Dev × List Event) :=
  match BIT irq with
  | none => none
  | some v => some (d.write_ISER0 v, [Event.write (Reg.NVIC_ISER 0) v])

/-- Modelled from the spec: write-1-to-clear behaviour of `NVIC.ICER[0]`, a
"hardware set/clear register"; the bits set in the written word are cleared
in the enable state. -/
def Dev.write_ICER0 (d : Dev) (v : Nat) : Dev :=
  { d with enabled := d.enabled &&& (0xFFFFFFFF ^^^ v) }

/-- Modelled from the spec: write-1-to-clear behaviour of `NVIC.ICPR[0]`, a
"hardware set/clear register"; the bits set in the written word are cleared
in the pending state. -/
def Dev.write_ICPR0 (d : Dev) (v : Nat) : Dev :=
  { d with pending := d.pending &&& (0xFFFFFFFF ^^^ v) }

/-- `disable_irq -- disable interrupts from a specific IRQ`: the single store
`NVIC.ICER[0] = BIT(irq)`. -/
def disable_irq (d : Dev) (irq : Int) : Option (Dev × List Event) :=
  match BIT irq with
  | none => none
  | some v => some (d.write_ICER0 v, [Event.write (Reg.NVIC_ICER 0) v])

/-- `clear_pending -- clear pending interrupt from an IRQ`: the single store
`NVIC.ICPR[0] = BIT(irq)`. -/
def clear_pending (d : Dev) (irq : Int) : Option (Dev × List Event) :=
  match BIT irq with
  | none => none
  | some v => some (d.write_ICPR0 v, [Event.write (Reg.NVIC_ICPR 0) v])

/-- The priority byte of a line, read back from the device state: the byte
lane that `irq_priority` addresses for that line. -/
def priority_of (d : Dev) (line : Int) : Option Nat :=
  if line < 0 then
    (word_at d.SHPR (int_shr (line + 12) 2)).map
      (fun w => byte_lane w (int_and line 0x3).toNat)
  else
    (word_at d.IPR (int_shr line 2)).map
      (fun w => byte_lane w (int_and line 0x3).toNat)

/-- The register block, word index and byte lane in the two `SET_BYTE` calls
of `irq_priority`; the block is `true` for `SCB.SHPR` and `false` for
`NVIC.IPR`. -/
def irq_target (irq : Int) : Bool × Int × Int :=
  if irq < 0 then (true, int_shr (irq + 12) 2, int_and irq 0x3)
  else (false, int_shr irq 2, int_and irq 0x3)

/-! ## GPIO convenience (startup.c lines 131-167) -/

/-- State of the GPIO port that `gpio_dir` and `gpio_out` act on: the pin
directions and the output levels. -/
structure Gpio where
  DIR : Nat
  OUT : Nat
  deriving DecidableEq

/-- Modelled from the spec: the set and clear registers of the GPIO port; a
write to `DIRSET` or `OUTSET` sets the bits of the written word, a write to
`DIRCLR` or `OUTCLR` clears them. -/
def Gpio.write (g : Gpio) (r : Reg) (v : Nat) : Gpio :=
  match r with
  | Reg.GPIO_DIRSET => { g with DIR := g.DIR ||| v }
  | Reg.GPIO_DIRCLR => { g with DIR := g.DIR &&& (0xFFFFFFFF ^^^ v) }
  | Reg.GPIO_OUTSET => { g with OUT := g.OUT ||| v }
  | Reg.GPIO_OUTCLR => { g with OUT := g.OUT &&& (0xFFFFFFFF ^^^ v) }
  | Reg.GPIO_DIR => { g with DIR := v }
  | Reg.GPIO_OUT => { g with OUT := v }
  | _ => g

/-- `gpio_dir -- set GPIO direction`; `pin` and `dir` are `unsigned`. -/
def gpio_dir (g : Gpio) (pin dir : Nat) : Option (Gpio × List Event) :=
  if dir ≠ 0 then
    match BIT (pin : Int) with
    | none => none
    | some v => some (g.write Reg.GPIO_DIRSET v, [Event.write Reg.GPIO_DIRSET v])
  else
    match BIT (pin : Int) with
    | none => none
    | some v => some (g.write Reg.GPIO_DIRCLR v, [Event.write Reg.GPIO_DIRCLR v])

/-- `gpio_out -- set GPIO output value`; `pin` and `value` are `unsigned`. -/
def gpio_out (g : Gpio) (pin value : Nat) : Option (Gpio × List Event) :=
  if value ≠ 0 then
    match BIT (pin : Int) with
    | none => none
    | some v => some (g.write Reg.GPIO_OUTSET v, [Event.write Reg.GPIO_OUTSET v])
  else
    match BIT (pin : Int) with
    | none => none
    | some v => some (g.write Reg.GPIO_OUTCLR v, [Event.write Reg.GPIO_OUTCLR v])

/-- A GPIO port state. -/
def sample_gpio : Gpio := { DIR := 0xFFF0, OUT := 0x4020 }

/-! ## Sample inputs -/

/-- A memory holding the byte `(a / 3) mod 256` at every address `a`. -/
def sample_mem : Mem := fun a => toByte (a / 3)

/-- A device state with three `SHPR` words and eight `IPR` words. -/
def sample_dev : Dev :=
  { SHPR := [0x11223344, 0x55667788, 0x99AABBCC],
    IPR := [0x01020304, 0, 0, 0, 0, 0, 0, 0xF0E0D0C0],
    enabled := 0x00000105,
    pending := 0 }

/-- A small memory layout: 4 bytes of data at 0x20000000 with their image at
0x1000, followed by 4 bytes of bss. -/
def sample_layout : Layout :=
  { __data_start := 0x20000000, __data_end := 0x20000004,
    __bss_start := 0x20000004, __bss_end := 0x20000008,
    __etext := 0x1000, __stack := 0x20004000 }

/-- A clock-ready flag that reads 0 twice and 1 from then on. -/
def sample_ready : Nat → Nat := fun k => if k < 2 then 0 else 1

/-! # Theorems -/

/-! ## Basic facts about pointers and stores -/

theorem ptrAdd_zero (p : Nat) (hp : p < WORD) : ptrAdd p 0 = p := by
  simp [ptrAdd, Nat.mod_eq_of_lt hp]

theorem ptrAdd_ptrAdd_one (p k : Nat) : ptrAdd (ptrAdd p 1) k = ptrAdd p (k + 1) := by
  unfold ptrAdd
  rw [Nat.mod_add_mod]
  congr 1
  omega

theorem ptrAdd_lt (p k : Nat) : ptrAdd p k < WORD :=
  Nat.mod_lt _ (by decide)

theorem ptrAdd_of_lt (p k : Nat) (h : p + k < WORD) : ptrAdd p k = p + k :=
  Nat.mod_eq_of_lt h

theorem ptrPred_ptrAdd_one (p : Nat) (hp : p < WORD) : ptrPred (ptrAdd p 1) = p := by
  unfold ptrPred ptrAdd WORD at *
  omega

theorem ptrPred_ptrAdd_succ (p k : Nat) : ptrPred (ptrAdd p (k + 1)) = ptrAdd p k := by
  unfold ptrPred ptrAdd WORD
  omega

theorem store_same (m : Mem) (p : Nat) (v : Byte) : m.store p v p = v := by
  simp [Mem.store]

theorem store_other (m : Mem) (p a : Nat) (v : Byte) (h : a ≠ p) : m.store p v a = m a := by
  simp [Mem.store, h]

/-! ## The copying loops -/

/-- The forward loop changes no byte outside the addresses it stores to. -/
theorem copy_up_frame (n : Nat) : ∀ (p q : Nat) (m : Mem) (a : Nat), p < WORD →
    (∀ j, j < n → a ≠ ptrAdd p j) → copy_up n p q m a = m a := by
  induction n with
  | zero => intro p q m a _ _; rfl
  | succ n ih =>
    intro p q m a hp h
    rw [copy_up, ih (ptrAdd p 1) (ptrAdd q 1) _ a (ptrAdd_lt p 1)]
    · apply store_other
      have := h 0 (Nat.succ_pos n)
      rwa [ptrAdd_zero p hp] at this
    · intro j hj
      rw [ptrAdd_ptrAdd_one]
      exact h (j + 1) (Nat.succ_lt_succ hj)

/-- The forward loop copies byte `i` correctly as soon as no earlier step has
stored to the address it reads and no later step stores to the address it
writes. -/
theorem copy_up_spec (n : Nat) : ∀ (p q : Nat) (m : Mem) (i : Nat), p < WORD → q < WORD →
    i < n → (∀ j, j < i → ptrAdd p j ≠ ptrAdd q i) →
    (∀ j, i < j → j < n → ptrAdd p i ≠ ptrAdd p j) →
    copy_up n p q m (ptrAdd p i) = m (ptrAdd q i) := by
  induction n with
  | zero => intro p q m i _ _ hi; exact absurd hi (Nat.not_lt_zero i)
  | succ n ih =>
    intro p q m i hp hq hi hr hw
    rw [copy_up]
    cases i with
    | zero =>
      rw [copy_up_frame n _ _ _ _ (ptrAdd_lt p 1), ptrAdd_zero p hp, ptrAdd_zero q hq,
        store_same]
      intro j hj
      rw [ptrAdd_ptrAdd_one]
      exact hw (j + 1) (Nat.succ_pos j) (Nat.succ_lt_succ hj)
    | succ k =>
      have hk : k < n := Nat.lt_of_succ_lt_succ hi
      rw [← ptrAdd_ptrAdd_one p k, ih (ptrAdd p 1) (ptrAdd q 1) _ k (ptrAdd_lt p 1)
        (ptrAdd_lt q 1) hk, ptrAdd_ptrAdd_one q k]
      · apply store_other
        have := hr 0 (Nat.succ_pos k)
        rw [ptrAdd_zero p hp] at this
        exact fun h => this h.symm
      · intro j hj
        rw [ptrAdd_ptrAdd_one, ptrAdd_ptrAdd_one]
        exact hr (j + 1) (Nat.succ_lt_succ hj)
      · intro j hkj hjn
        rw [ptrAdd_ptrAdd_one, ptrAdd_ptrAdd_one]
        exact hw (j + 1) (Nat.succ_lt_succ hkj) (Nat.succ_lt_succ hjn)

/-- The backward loop, started at the ends of the two ranges, changes no byte
outside the addresses it stores to. -/
theorem copy_down_frame (d s : Nat) (n : Nat) : ∀ (m : Mem) (a : Nat),
    (∀ j, j < n → a ≠ ptrAdd d j) →
    copy_down n (ptrAdd d n) (ptrAdd s n) m a = m a := by
  induction n with
  | zero => intro m a _; rfl
  | succ n ih =>
    intro m a h
    rw [copy_down, ptrPred_ptrAdd_succ, ptrPred_ptrAdd_succ, ih _ a]
    · exact store_other _ _ _ _ (h n (Nat.lt_succ_self n))
    · intro j hj
      exact h j (Nat.lt_succ_of_lt hj)

/-- The backward loop copies byte `i` correctly as soon as no earlier step (a
higher index) has stored to the address it reads and no later step (a lower
index) stores to the address it writes. -/
theorem copy_down_spec (d s : Nat) (n : Nat) : ∀ (m : Mem) (i : Nat), i < n →
    (∀ j, i < j → j < n → ptrAdd d j ≠ ptrAdd s i) →
    (∀ j, j < i → ptrAdd d i ≠ ptrAdd d j) →
    copy_down n (ptrAdd d n) (ptrAdd s n) m (ptrAdd d i) = m (ptrAdd s i) := by
  induction n with
  | zero => intro m i hi; exact absurd hi (Nat.not_lt_zero i)
  | succ n ih =>
    intro m i hi hr hw
    rw [copy_down, ptrPred_ptrAdd_succ, ptrPred_ptrAdd_succ]
    rcases Nat.lt_succ_iff_lt_or_eq.mp hi with hlt | heq
    · rw [ih _ i hlt (fun j hij hjn => hr j hij (Nat.lt_succ_of_lt hjn)) hw]
      apply store_other
      exact fun h => hr n hlt (Nat.lt_succ_self n) h.symm
    · subst heq
      rw [copy_down_frame d s i _ _ hw, store_same]

/-- A byte that already holds the fill value still holds it after the fill loop. -/
theorem fill_up_keeps (n : Nat) : ∀ (p x : Nat) (m : Mem) (a : Nat),
    m a = toByte x → fill_up n p x m a = toByte x := by
  induction n with
  | zero => intro p x m a h; exact h
  | succ n ih =>
    intro p x m a h
    rw [fill_up]
    apply ih
    unfold Mem.store
    split
    · rfl
    · exact h

/-- The fill loop changes no byte outside the addresses it stores to. -/
theorem fill_up_frame (n : Nat) : ∀ (p x : Nat) (m : Mem) (a : Nat), p < WORD →
    (∀ j, j < n → a ≠ ptrAdd p j) → fill_up n p x m a = m a := by
  induction n with
  | zero => intro p x m a _ _; rfl
  | succ n ih =>
    intro p x m a hp h
    rw [fill_up, ih (ptrAdd p 1) x _ a (ptrAdd_lt p 1)]
    · apply store_other
      have := h 0 (Nat.succ_pos n)
      rwa [ptrAdd_zero p hp] at this
    · intro j hj
      rw [ptrAdd_ptrAdd_one]
      exact h (j + 1) (Nat.succ_lt_succ hj)

/-- Every byte the fill loop stores to ends up holding the fill value. -/
theorem fill_up_spec (n : Nat) : ∀ (p x : Nat) (m : Mem) (i : Nat), p < WORD → i < n →
    fill_up n p x m (ptrAdd p i) = toByte x := by
  induction n with
  | zero => intro p x m i _ hi; exact absurd hi (Nat.not_lt_zero i)
  | succ n ih =>
    intro p x m i hp hi
    rw [fill_up]
    cases i with
    | zero =>
      apply fill_up_keeps
      rw [ptrAdd_zero p hp, store_same]
    | succ k =>
      rw [← ptrAdd_ptrAdd_one p k]
      exact ih (ptrAdd p 1) x _ k (ptrAdd_lt p 1) (Nat.lt_of_succ_lt_succ hi)

/-- Two offsets below `2 ^ 32` from the same base give different addresses. -/
theorem ptrAdd_injective (p i j : Nat) (hi : i < WORD) (hj : j < WORD) (h : i ≠ j) :
    ptrAdd p i ≠ ptrAdd p j := by
  unfold ptrAdd WORD at *
  omega

/-! ## The comparison loop -/

/-- The comparison loop returns 0 on ranges that agree everywhere. -/
theorem memcmp_loop_equal (n : Nat) : ∀ (p q : Nat) (m : Mem), p < WORD → q < WORD →
    (∀ i, i < n → m (ptrAdd p i) = m (ptrAdd q i)) → memcmp_loop n p q m = 0 := by
  induction n with
  | zero => intro p q m _ _ _; rfl
  | succ n ih =>
    intro p q m hp hq h
    have h0 := h 0 (Nat.succ_pos n)
    rw [ptrAdd_zero p hp, ptrAdd_zero q hq] at h0
    rw [memcmp_loop, if_neg (not_not.mpr h0)]
    apply ih _ _ _ (ptrAdd_lt p 1) (ptrAdd_lt q 1)
    intro i hi
    rw [ptrAdd_ptrAdd_one, ptrAdd_ptrAdd_one]
    exact h (i + 1) (Nat.succ_lt_succ hi)

/-- The comparison loop returns at the first index `k` where the ranges
differ, with -1 or 1 according to the two bytes at that index. -/
theorem memcmp_loop_first_diff (n : Nat) : ∀ (p q : Nat) (m : Mem) (k : Nat),
    p < WORD → q < WORD → k < n →
    (∀ i, i < k → m (ptrAdd p i) = m (ptrAdd q i)) →
    m (ptrAdd p k) ≠ m (ptrAdd q k) →
    memcmp_loop n p q m = if m (ptrAdd p k) < m (ptrAdd q k) then -1 else 1 := by
  induction n with
  | zero => intro p q m k _ _ hk; exact absurd hk (Nat.not_lt_zero k)
  | succ n ih =>
    intro p q m k hp hq hk heq hne
    rw [memcmp_loop]
    cases k with
    | zero =>
      rw [ptrAdd_zero p hp, ptrAdd_zero q hq] at hne ⊢
      rw [if_pos hne, ptrPred_ptrAdd_one p hp, ptrPred_ptrAdd_one q hq]
    | succ j =>
      have h0 := heq 0 (Nat.succ_pos j)
      rw [ptrAdd_zero p hp, ptrAdd_zero q hq] at h0
      rw [if_neg (not_not.mpr h0), ← ptrAdd_ptrAdd_one p j, ← ptrAdd_ptrAdd_one q j]
      apply ih _ _ _ j (ptrAdd_lt p 1) (ptrAdd_lt q 1) (Nat.lt_of_succ_lt_succ hk)
      · intro i hi
        rw [ptrAdd_ptrAdd_one, ptrAdd_ptrAdd_one]
        exact heq (i + 1) (Nat.succ_lt_succ hi)
      · rw [ptrAdd_ptrAdd_one, ptrAdd_ptrAdd_one]
        exact hne

/-! ## Claims on the memory primitives -/

/-- C1: for every memory, every `dest`, `src` and `n` with `[dest, dest+n)` and
`[src, src+n)` inside the address space, whatever the overlap of the two
ranges, after `memmove(dest, src, n)` the byte at `dest+i` holds the value the
byte at `src+i` held before the call, for every `i < n`. -/
theorem memmove_copies_any_overlap (m : Mem) (dest src n : Nat)
    (hd : dest + n ≤ WORD) (hs : src + n ≤ WORD) :
    ∀ i, i < n → (memmove m dest src n).1 (dest + i) = m (src + i) := by
  intro i hi
  have hdi : ptrAdd dest i = dest + i := ptrAdd_of_lt _ _ (by omega)
  have hsi : ptrAdd src i = src + i := ptrAdd_of_lt _ _ (by omega)
  have hiW : i < WORD := by omega
  unfold memmove
  split
  · rename_i hle
    show copy_up n dest src m (dest + i) = m (src + i)
    rw [← hdi, ← hsi]
    apply copy_up_spec n dest src m i (by omega) (by omega) hi
    · intro j hj
      rw [hsi, ptrAdd_of_lt dest j (by omega)]
      omega
    · intro j hij hjn
      exact ptrAdd_injective dest i j hiW (by omega) (by omega)
  · rename_i hgt
    show copy_down n (ptrAdd dest n) (ptrAdd src n) m (dest + i) = m (src + i)
    rw [← hdi, ← hsi]
    apply copy_down_spec dest src n m i hi
    · intro j hij hjn
      rw [hsi, ptrAdd_of_lt dest j (by omega)]
      omega
    · intro j hji
      exact ptrAdd_injective dest i j hiW (by omega) (by omega)

/-- Witness for C1 on a backward-overlapping pair of ranges (`dest > src`). -/
theorem memmove_copies_any_overlap_witness :
    (0x102 + 4 ≤ WORD ∧ 0x100 + 4 ≤ WORD) ∧
    ∀ i, i < 4 → (memmove sample_mem 0x102 0x100 4).1 (0x102 + i) = sample_mem (0x100 + i) :=
  ⟨by decide, memmove_copies_any_overlap sample_mem 0x102 0x100 4 (by decide) (by decide)⟩

/-- C2: for 32-bit `dest`, `src` and `n`, if the ranges of `n` bytes at `dest`
and at `src` do not overlap, then after `memcpy(dest, src, n)` the byte at
`dest+i` equals the byte at `src+i`, which is unchanged, for every `i < n`, and
the call returns `dest`; and when `n = 0` the whole memory is as it was.
Addresses are the ones the machine computes, `ptrAdd dest i`, which is
`dest + i` whenever that is below `2 ^ 32`. -/
theorem memcpy_copies_disjoint (m : Mem) (dest src n : Nat)
    (hd : dest < WORD) (hs : src < WORD) (hn : n < WORD)
    (hdisj : ∀ i j, i < n → j < n → ptrAdd dest i ≠ ptrAdd src j) :
    (∀ i, i < n →
        (memcpy m dest src n).1 (ptrAdd dest i) = m (ptrAdd src i) ∧
        (memcpy m dest src n).1 (ptrAdd src i) = m (ptrAdd src i)) ∧
    (memcpy m dest src n).2 = dest ∧
    (n = 0 → (memcpy m dest src n).1 = m) := by
  refine ⟨?_, rfl, ?_⟩
  · intro i hi
    constructor
    · apply copy_up_spec n dest src m i hd hs hi
      · intro j hj
        exact hdisj j i (by omega) hi
      · intro j hij hjn
        exact ptrAdd_injective dest i j (by omega) (by omega) (by omega)
    · apply copy_up_frame n dest src m _ hd
      intro j hj h
      exact hdisj j i hj hi h.symm
  · intro h0
    subst h0
    rfl

/-- Witness for C2: four bytes copied between two disjoint ranges. -/
theorem memcpy_copies_disjoint_witness :
    (∀ i j, i < 4 → j < 4 → ptrAdd 0x200 i ≠ ptrAdd 0x100 j) ∧
    ((∀ i, i < 4 →
        (memcpy sample_mem 0x200 0x100 4).1 (ptrAdd 0x200 i) = sample_mem (ptrAdd 0x100 i) ∧
        (memcpy sample_mem 0x200 0x100 4).1 (ptrAdd 0x100 i) = sample_mem (ptrAdd 0x100 i)) ∧
      (memcpy sample_mem 0x200 0x100 4).2 = 0x200 ∧
      ((4 : Nat) = 0 → (memcpy sample_mem 0x200 0x100 4).1 = sample_mem)) :=
  have h : ∀ i j, i < 4 → j < 4 → ptrAdd 0x200 i ≠ ptrAdd 0x100 j := by
    intro i j hi hj
    unfold ptrAdd WORD
    omega
  ⟨h, memcpy_copies_disjoint sample_mem 0x200 0x100 4 (by decide) (by decide) (by decide) h⟩

/-- C3: for two byte sequences of length `n` (the bytes at `pp+i` and `qq+i`,
`i < n`), `memcmp` returns 0 exactly when they agree at every index; otherwise,
with `k` the least index where they differ, the result is negative when
`a[k] < b[k]` and positive when `a[k] > b[k]`, bytes compared as unsigned
values, so that its sign is the sign of `a[k] - b[k]`. -/
theorem memcmp_zero_iff_and_sign (m : Mem) (pp qq n : Nat) (hp : pp < WORD) (hq : qq < WORD) :
    (memcmp m pp qq (n : Int) = 0 ↔ ∀ i, i < n → m (ptrAdd pp i) = m (ptrAdd qq i)) ∧
    ∀ k, k < n → (∀ i, i < k → m (ptrAdd pp i) = m (ptrAdd qq i)) →
      m (ptrAdd pp k) ≠ m (ptrAdd qq k) →
      ((m (ptrAdd pp k)).val < (m (ptrAdd qq k)).val → memcmp m pp qq (n : Int) < 0) ∧
      ((m (ptrAdd pp k)).val > (m (ptrAdd qq k)).val → memcmp m pp qq (n : Int) > 0) ∧
      Int.sign (memcmp m pp qq (n : Int)) =
        Int.sign (((m (ptrAdd pp k)).val : Int) - ((m (ptrAdd qq k)).val : Int)) := by
  have hfirst : ∀ k, k < n → (∀ i, i < k → m (ptrAdd pp i) = m (ptrAdd qq i)) →
      m (ptrAdd pp k) ≠ m (ptrAdd qq k) →
      memcmp m pp qq (n : Int) = if m (ptrAdd pp k) < m (ptrAdd qq k) then -1 else 1 := by
    intro k hk heq hne
    unfold memcmp
    rw [Int.toNat_natCast]
    exact memcmp_loop_first_diff n pp qq m k hp hq hk heq hne
  constructor
  · constructor
    · intro h0
      by_contra hex
      push_neg at hex
      have hex2 : ∃ k, k < n ∧ m (ptrAdd pp k) ≠ m (ptrAdd qq k) := hex
      classical
      have hk := Nat.find_spec hex2
      have hmin : ∀ i, i < Nat.find hex2 → m (ptrAdd pp i) = m (ptrAdd qq i) := by
        intro i hi
        by_contra hne
        exact Nat.find_min hex2 hi ⟨Nat.lt_trans hi hk.1, hne⟩
      have := hfirst _ hk.1 hmin hk.2
      rw [h0] at this
      split at this <;> omega
    · intro h
      unfold memcmp
      rw [Int.toNat_natCast]
      exact memcmp_loop_equal n pp qq m hp hq h
  · intro k hk heq hne
    have hr := hfirst k hk heq hne
    have hval : (m (ptrAdd pp k)).val ≠ (m (ptrAdd qq k)).val := fun h => hne (Fin.ext h)
    by_cases hlt : m (ptrAdd pp k) < m (ptrAdd qq k)
    · rw [if_pos hlt] at hr
      have hlt2 : (m (ptrAdd pp k)).val < (m (ptrAdd qq k)).val := hlt
      refine ⟨fun _ => by omega, fun h => by omega, ?_⟩
      have hs : Int.sign (((m (ptrAdd pp k)).val : Int) - ((m (ptrAdd qq k)).val : Int)) = -1 :=
        Int.sign_eq_neg_one_of_neg (by omega)
      rw [hr, hs]
      rfl
    · rw [if_neg hlt] at hr
      have hge : ¬ (m (ptrAdd pp k)).val < (m (ptrAdd qq k)).val := hlt
      refine ⟨fun h => absurd h hge, fun _ => by omega, ?_⟩
      have hs : Int.sign (((m (ptrAdd pp k)).val : Int) - ((m (ptrAdd qq k)).val : Int)) = 1 :=
        Int.sign_eq_one_of_pos (by omega)
      rw [hr, hs]
      rfl

/-- Witness for C3: the ranges at 0 and at 769 of the sample memory hold
0, 0, 0, 1 and 0, 0, 1, 1: they first differ at index 2, where 0 < 1. -/
theorem memcmp_zero_iff_and_sign_witness :
    ((0 : Nat) < WORD ∧ (769 : Nat) < WORD) ∧
    (memcmp sample_mem 0 769 ((4 : Nat) : Int) = 0 ↔
      ∀ i, i < 4 → sample_mem (ptrAdd 0 i) = sample_mem (ptrAdd 769 i)) ∧
    memcmp sample_mem 0 769 ((4 : Nat) : Int) < 0 ∧
    Int.sign (memcmp sample_mem 0 769 ((4 : Nat) : Int)) =
      Int.sign (((sample_mem (ptrAdd 0 2)).val : Int) - ((sample_mem (ptrAdd 769 2)).val : Int)) :=
  have h := memcmp_zero_iff_and_sign sample_mem 0 769 4 (by decide) (by decide)
  have h2 := h.2 2 (by decide) (by decide) (by decide)
  ⟨by decide, h.1, h2.1 (by decide), h2.2.2⟩

/-- C4: after `memset(dest, x, n)` each of the `n` bytes at `dest`, `dest+1`,
..., `dest+n-1` equals `x mod 256`, and the call returns `dest`. -/
theorem memset_fills_low_byte (m : Mem) (dest x n : Nat) (hd : dest < WORD) :
    (∀ i, i < n → ((memset m dest x n).1 (ptrAdd dest i)).val = x % 256) ∧
    (memset m dest x n).2 = dest := by
  refine ⟨?_, rfl⟩
  intro i hi
  show (fill_up n dest x m (ptrAdd dest i)).val = x % 256
  rw [fill_up_spec n dest x m i hd hi]
  rfl

/-- Witness for C4: filling 3 bytes with the value 0x1AB stores 0xAB. -/
theorem memset_fills_low_byte_witness :
    (0x100 : Nat) < WORD ∧
    ((∀ i, i < 3 → ((memset sample_mem 0x100 0x1AB 3).1 (ptrAdd 0x100 i)).val = 0x1AB % 256) ∧
      (memset sample_mem 0x100 0x1AB 3).2 = 0x100) :=
  ⟨by decide, memset_fills_low_byte sample_mem 0x100 0x1AB 3 (by decide)⟩

/-! ## The boot sequence -/

/-- The clock wait ends, given fuel, as soon as some read returns non-zero. -/
theorem wait_clock_returns (ready : Nat → Nat) (j : Nat) : ∀ (k fuel : Nat),
    ready (k + j) ≠ 0 → j < fuel → ∃ polls, wait_clock ready fuel k = some polls := by
  induction j with
  | zero =>
    intro k fuel h hf
    cases fuel with
    | zero => exact absurd hf (Nat.lt_irrefl 0)
    | succ f =>
      have h2 : ready k ≠ 0 := h
      exact ⟨_, by rw [wait_clock, if_pos h2]⟩
  | succ j ih =>
    intro k fuel h hf
    cases fuel with
    | zero => exact absurd hf (Nat.not_lt_zero _)
    | succ f =>
      rw [wait_clock]
      split
      · exact ⟨_, rfl⟩
      · have h2 : ready (k + 1 + j) ≠ 0 := by
          have e : k + 1 + j = k + (j + 1) := by omega
          rw [e]
          exact h
        obtain ⟨polls, hp⟩ := ih (k + 1) f h2 (Nat.lt_of_succ_lt_succ hf)
        exact ⟨_, by rw [hp]; rfl⟩

/-- The size of a region, computed as an `int` pointer difference and passed
as an `unsigned` argument, is the number of bytes of the region. -/
theorem region_size (s e D : Nat) (h : e = s + D) (he : e < WORD) :
    toUnsigned (toInt32 ((e : Int) - (s : Int))) = D := by
  unfold toUnsigned toInt32 WORD at *
  omega

/-- C5: if the clock-ready flag eventually reads non-zero, the data region
`[__data_start, __data_end)` has `D` bytes, the zero region
`[__bss_start, __bss_end)` has `B` bytes, and the data region overlaps neither
its image (the `D` bytes from `__etext`) nor the zero region, then with enough
fuel `__reset` reaches the call of `__start`, and at that moment, whatever
the memory held before, data byte `i` equals image byte `i` for every `i < D`
and every byte of the zero region is 0.  (That the image and the zero region
are disjoint is not needed.)  The image addresses are the ones the machine
computes, `ptrAdd __etext i`, which is `__etext + i` whenever that is below
`2 ^ 32`. -/
theorem reset_initialises_data_and_bss (L : Layout) (ready : Nat → Nat) (m : Mem) (D B : Nat)
    (hclk : ∃ k, ready k ≠ 0)
    (hD : L.__data_end = L.__data_start + D) (hDe : L.__data_end < WORD)
    (hB : L.__bss_end = L.__bss_start + B) (hBe : L.__bss_end < WORD)
    (hE : L.__etext < WORD)
    (h_data_image : ∀ i j, i < D → j < D → L.__data_start + i ≠ ptrAdd L.__etext j)
    (h_data_bss : ∀ i j, i < D → j < B → L.__data_start + i ≠ L.__bss_start + j) :
    ∃ fuel0, ∀ fuel, fuel0 ≤ fuel → ∃ m1 evs,
      __reset L ready fuel m = some (m1, evs) ∧
      (∀ i, i < D → m1 (L.__data_start + i) = m (ptrAdd L.__etext i)) ∧
      (∀ j, j < B → m1 (L.__bss_start + j) = 0) := by
  obtain ⟨k, hk⟩ := hclk
  refine ⟨k + 1, ?_⟩
  intro fuel hfuel
  have hk0 : ready (0 + k) ≠ 0 := by rwa [Nat.zero_add]
  obtain ⟨polls, hpolls⟩ := wait_clock_returns ready k 0 fuel hk0 (by omega)
  have hds : toUnsigned (toInt32 ((L.__data_end : Int) - (L.__data_start : Int))) = D :=
    region_size _ _ _ hD hDe
  have hbs : toUnsigned (toInt32 ((L.__bss_end : Int) - (L.__bss_start : Int))) = B :=
    region_size _ _ _ hB hBe
  have hdlt : L.__data_start < WORD := by omega
  have hblt : L.__bss_start < WORD := by omega
  have hdadd : ∀ i, i < D → ptrAdd L.__data_start i = L.__data_start + i :=
    fun i hi => ptrAdd_of_lt _ _ (by omega)
  have hbadd : ∀ j, j < B → ptrAdd L.__bss_start j = L.__bss_start + j :=
    fun j hj => ptrAdd_of_lt _ _ (by omega)
  have hreset : ∃ evs, __reset L ready fuel m =
      some ((memset (memcpy m L.__data_start L.__etext D).1 L.__bss_start 0 B).1, evs) := by
    unfold __reset
    rw [hpolls]
    simp only [hds, hbs]
    exact ⟨_, rfl⟩
  obtain ⟨evs, hreset⟩ := hreset
  refine ⟨_, evs, hreset, ?_, ?_⟩
  · intro i hi
    simp only [memset, memcpy]
    rw [fill_up_frame B _ _ _ _ hblt, ← hdadd i hi]
    · apply copy_up_spec D _ _ m i hdlt hE hi
      · intro j hj
        rw [hdadd j (by omega)]
        exact h_data_image j i (by omega) hi
      · intro j hij hjD
        rw [hdadd j hjD, hdadd i hi]
        omega
    · intro j hj
      rw [hbadd j hj]
      exact h_data_bss i j hi hj
  · intro j hj
    simp only [memset, memcpy]
    rw [← hbadd j hj, fill_up_spec B _ _ _ j hblt hj]
    rfl

/-- Witness for C5: the sample layout (4 bytes of data, 4 bytes of bss) with a
clock flag that is seen set at the third read. -/
theorem reset_initialises_data_and_bss_witness :
    (∃ k, sample_ready k ≠ 0) ∧
    ∃ fuel0, ∀ fuel, fuel0 ≤ fuel → ∃ m1 evs,
      __reset sample_layout sample_ready fuel sample_mem = some (m1, evs) ∧
      (∀ i, i < 4 → m1 (sample_layout.__data_start + i) =
        sample_mem (ptrAdd sample_layout.__etext i)) ∧
      (∀ j, j < 4 → m1 (sample_layout.__bss_start + j) = 0) :=
  have hclk : ∃ k, sample_ready k ≠ 0 := ⟨2, by decide⟩
  ⟨hclk, reset_initialises_data_and_bss sample_layout sample_ready sample_mem 4 4 hclk
    (by decide) (by decide) (by decide) (by decide) (by decide)
    (by intro i j hi hj; simp only [sample_layout, ptrAdd, WORD]; omega)
    (by intro i j hi hj; simp only [sample_layout]; omega)⟩

/-! ## The vector table -/

/-- C6: the vector table `__vectors` has exactly 48 entries, 16 core-exception
slots (the lines before the comment `external interrupts`) followed by 32
peripheral-line slots; entry 0 is the initial stack pointer `__stack` and
entry 1 is the reset handler `__reset`. -/
theorem vectors_length_and_first_slots :
    __vectors.length = 48 ∧
    ((vector_rows.take 5).map Prod.fst).flatten.length = 16 ∧
    ((vector_rows.drop 5).map Prod.fst).flatten.length = 32 ∧
    __vectors = ((vector_rows.take 5).map Prod.fst).flatten ++
      ((vector_rows.drop 5).map Prod.fst).flatten ∧
    __vectors[0]? = some (some Sym.__stack) ∧
    __vectors[1]? = some (some Sym.__reset) := by
  refine ⟨rfl, rfl, rfl, rfl, rfl, rfl⟩

/-- C7: the slot order of `__vectors` is the hardware order: slots 1, 2, 3 hold
`__reset`, `nmi_handler`, `hardfault_handler`; slots 4 to 10 are null; slot 11
holds `svc_handler`; slots 12 and 13 are null; slot 14 holds `pendsv_handler`;
slot 15 holds `systick_handler`; the entry of peripheral line `k` is at slot
`16 + k`, in agreement with every index annotation of the table (each is the
slot of the last entry of its line, minus 16), e.g. line 0
`power_clock_handler`, line 2 `uart_handler`, line 8 `timer0_handler`, line 25
`swi5_handler`, with lines 5 and 26..31 null. -/
theorem vectors_hardware_order :
    __vectors[1]? = some (some Sym.__reset) ∧
    __vectors[2]? = some (some Sym.nmi_handler) ∧
    __vectors[3]? = some (some Sym.hardfault_handler) ∧
    (__vectors.drop 4).take 7 = List.replicate 7 none ∧
    __vectors[11]? = some (some Sym.svc_handler) ∧
    __vectors[12]? = some none ∧
    __vectors[13]? = some none ∧
    __vectors[14]? = some (some Sym.pendsv_handler) ∧
    __vectors[15]? = some (some Sym.systick_handler) ∧
    (annotated_slots vector_rows 0).map Prod.snd =
      [-16, -12, -8, -4, 0, 4, 8, 12, 16, 20, 24, 28] ∧
    (annotated_slots vector_rows 0).map (fun sa => (sa.1 : Int) - 16) =
      (annotated_slots vector_rows 0).map Prod.snd ∧
    __vectors[16 + 0]? = some (some Sym.power_clock_handler) ∧
    __vectors[16 + 2]? = some (some Sym.uart_handler) ∧
    __vectors[16 + 8]? = some (some Sym.timer0_handler) ∧
    __vectors[16 + 25]? = some (some Sym.swi5_handler) ∧
    __vectors[16 + 5]? = some none ∧
    (__vectors.drop (16 + 26)).take 6 = List.replicate 6 none ∧
    (__vectors.drop (16 + 26)).length = 6 ∧
    __vectors.drop 16 =
      [some Sym.power_clock_handler, some Sym.radio_handler, some Sym.uart_handler,
       some Sym.i2c0_spi0_handler, some Sym.i2c1_spi1_handler, none,
       some Sym.gpiote_handler, some Sym.adc_handler, some Sym.timer0_handler,
       some Sym.timer1_handler, some Sym.timer2_handler, some Sym.rtc0_handler,
       some Sym.temp_handler, some Sym.rng_handler, some Sym.ecb_handler,
       some Sym.ccm_aar_handler, some Sym.wdt_handler, some Sym.rtc1_handler,
       some Sym.qdec_handler, some Sym.lpcomp_handler, some Sym.swi0_handler,
       some Sym.swi1_handler, some Sym.swi2_handler, some Sym.swi3_handler,
       some Sym.swi4_handler, some Sym.swi5_handler,
       none, none, none, none, none, none] := by
  refine ⟨rfl, rfl, rfl, rfl, rfl, rfl, rfl, rfl, rfl, ?_, ?_, rfl, rfl, rfl, rfl, rfl,
    rfl, rfl, rfl⟩
  · decide
  · decide

/-! ## The NVIC setup functions -/

theorem testBit_0xFF (i : Nat) : Nat.testBit 0xFF i = decide (i < 8) := by
  have h := Nat.testBit_two_pow_sub_one 8 i
  simpa using h

theorem testBit_0xFFFFFFFF (i : Nat) : Nat.testBit 0xFFFFFFFF i = decide (i < 32) := by
  have h := Nat.testBit_two_pow_sub_one 32 i
  simpa using h

/-- The word `SET_BYTE reg n v` has the low 8 bits of `v` in byte lane `n` and
the bytes of `reg` in the other three lanes. -/
theorem byte_lane_SET_BYTE (w n v k : Nat) (hn : n < 4) (hk : k < 4) :
    byte_lane (SET_BYTE w n v) k = if k = n then v % 256 else byte_lane w k := by
  apply Nat.eq_of_testBit_eq
  intro i
  have h256 : v % 256 = v &&& 0xFF := (Nat.and_pow_two_sub_one_eq_mod v 8).symm
  rw [h256]
  split
  · subst k
    simp only [byte_lane, SET_BYTE, Nat.testBit_and, Nat.testBit_or, Nat.testBit_xor,
      Nat.testBit_shiftLeft, Nat.testBit_shiftRight, testBit_0xFF, testBit_0xFFFFFFFF]
    by_cases h : i < 8
    · have h1 : 8 * n + i ≥ 8 * n := by omega
      have h2 : 8 * n + i - 8 * n = i := by omega
      have h3 : 8 * n + i < 32 := by omega
      simp [h, h1, h2, h3]
    · simp [h]
  · simp only [byte_lane, SET_BYTE, Nat.testBit_and, Nat.testBit_or, Nat.testBit_xor,
      Nat.testBit_shiftLeft, Nat.testBit_shiftRight, testBit_0xFF, testBit_0xFFFFFFFF]
    by_cases h : i < 8
    · have h3 : 8 * k + i < 32 := by omega
      by_cases h1 : 8 * k + i ≥ 8 * n
      · have h4 : ¬ (8 * k + i - 8 * n < 8) := by omega
        simp [h, h1, h3, h4]
      · simp [h, h1, h3]
    · simp [h]

/-- The expression `irq & 0x3` is `irq mod 4`, the non-negative remainder. -/
theorem int_and_three (z : Int) : int_and z 0x3 = z % 4 := by
  have h3 : toUnsigned 0x3 = 2 ^ 2 - 1 := by decide
  unfold int_and
  rw [h3, Nat.and_pow_two_sub_one_eq_mod]
  unfold toInt32 toUnsigned
  omega

/-- The expression `irq >> 2` is `irq / 4`, rounded down. -/
theorem int_shr_two (z : Int) : int_shr z 2 = z / 4 := by
  have h := Int.shiftRight_eq_div_pow z 2
  simpa [int_shr] using h

/-- Inside the array, `word_at` is the element at the index. -/
theorem word_at_inside (a : List Nat) (i : Int) (h0 : 0 ≤ i) (h : i.toNat < a.length) :
    word_at a i = some (a.get ⟨i.toNat, h⟩) := by
  unfold word_at
  rw [if_pos h0, List.getElem?_eq_getElem h]
  rfl

/-- A defined `word_at` means an index inside the array. -/
theorem word_at_some (a : List Nat) (i : Int) (w : Nat) (h : word_at a i = some w) :
    0 ≤ i ∧ i.toNat < a.length := by
  unfold word_at at h
  split at h
  · rename_i h0
    exact ⟨h0, (List.getElem?_eq_some_iff.mp h).1⟩
  · cases h

/-- What `irq_priority` does for a core exception (negative `irq`). -/
theorem irq_priority_core (d : Dev) (irq : Int) (prio w : Nat) (h : irq < 0)
    (hw : word_at d.SHPR ((irq + 12) / 4) = some w) :
    irq_priority d irq prio =
      some ({ d with SHPR := d.SHPR.set ((irq + 12) / 4).toNat (SET_BYTE w (irq % 4).toNat prio) },
        [Event.read (Reg.SCB_SHPR ((irq + 12) / 4).toNat) w,
         Event.write (Reg.SCB_SHPR ((irq + 12) / 4).toNat) (SET_BYTE w (irq % 4).toNat prio)]) := by
  unfold irq_priority
  rw [if_pos h]
  simp only [int_shr_two, int_and_three, hw]

/-- What `irq_priority` does for a peripheral line (non-negative `irq`). -/
theorem irq_priority_peripheral (d : Dev) (irq : Int) (prio w : Nat) (h : 0 ≤ irq)
    (hw : word_at d.IPR (irq / 4) = some w) :
    irq_priority d irq prio =
      some ({ d with IPR := d.IPR.set (irq / 4).toNat (SET_BYTE w (irq % 4).toNat prio) },
        [Event.read (Reg.NVIC_IPR (irq / 4).toNat) w,
         Event.write (Reg.NVIC_IPR (irq / 4).toNat) (SET_BYTE w (irq % 4).toNat prio)]) := by
  unfold irq_priority
  rw [if_neg (not_lt.mpr h)]
  simp only [int_shr_two, int_and_three, hw]

/-- The lane number `irq mod 4` is below 4. -/
theorem lane_lt_four (irq : Int) : (irq % 4).toNat < 4 := by
  omega

/-- C8: for every line `>= 0` whose priority word exists in the peripheral
block, `irq_priority(line, prio)` targets byte lane `line mod 4` of word
`NVIC.IPR[line / 4]` (the expressions `line & 3` and `line >> 2` are `line mod 4`
and `line / 4`), sets that byte to `prio mod 256` and leaves the other three
byte lanes of the word unchanged.  For every line in `[-12, -1]` it targets
the core block instead: word `SCB.SHPR[(line + 12) >> 2]`, an index in
`{0, 1, 2}`, byte lane `line & 3`, which is `line mod 4` as a non-negative
remainder; so line -1 is word 2 lane 3, line -2 is word 2 lane 2 and line -5
is word 1 lane 3. -/
theorem irq_priority_selects_lane (d : Dev) (prio : Nat) :
    (∀ (line : Int) (w : Nat), 0 ≤ line → word_at d.IPR (line / 4) = some w →
      int_and line 0x3 = line % 4 ∧ int_shr line 2 = line / 4 ∧
      irq_priority d line prio =
        some ({ d with IPR := d.IPR.set (line / 4).toNat (SET_BYTE w (line % 4).toNat prio) },
          [Event.read (Reg.NVIC_IPR (line / 4).toNat) w,
           Event.write (Reg.NVIC_IPR (line / 4).toNat)
             (SET_BYTE w (line % 4).toNat prio)]) ∧
      byte_lane (SET_BYTE w (line % 4).toNat prio) (line % 4).toNat = prio % 256 ∧
      ∀ k, k < 4 → k ≠ (line % 4).toNat →
        byte_lane (SET_BYTE w (line % 4).toNat prio) k = byte_lane w k) ∧
    (∀ (line : Int) (w : Nat), -12 ≤ line → line < 0 →
      word_at d.SHPR ((line + 12) / 4) = some w →
      int_and line 0x3 = line % 4 ∧ int_shr (line + 12) 2 = (line + 12) / 4 ∧
      (0 ≤ (line + 12) / 4 ∧ (line + 12) / 4 ≤ 2) ∧
      irq_priority d line prio =
        some ({ d with
                SHPR := d.SHPR.set ((line + 12) / 4).toNat (SET_BYTE w (line % 4).toNat prio) },
          [Event.read (Reg.SCB_SHPR ((line + 12) / 4).toNat) w,
           Event.write (Reg.SCB_SHPR ((line + 12) / 4).toNat)
             (SET_BYTE w (line % 4).toNat prio)]) ∧
      byte_lane (SET_BYTE w (line % 4).toNat prio) (line % 4).toNat = prio % 256 ∧
      ∀ k, k < 4 → k ≠ (line % 4).toNat →
        byte_lane (SET_BYTE w (line % 4).toNat prio) k = byte_lane w k) ∧
    (int_shr (-1 + 12) 2 = 2 ∧ int_and (-1) 0x3 = 3) ∧
    (int_shr (-2 + 12) 2 = 2 ∧ int_and (-2) 0x3 = 2) ∧
    (int_shr (-5 + 12) 2 = 1 ∧ int_and (-5) 0x3 = 3) := by
  have hlanes : ∀ (line : Int) (w : Nat),
      byte_lane (SET_BYTE w (line % 4).toNat prio) (line % 4).toNat = prio % 256 ∧
      ∀ k, k < 4 → k ≠ (line % 4).toNat →
        byte_lane (SET_BYTE w (line % 4).toNat prio) k = byte_lane w k := by
    intro line w
    constructor
    · rw [byte_lane_SET_BYTE w _ prio _ (lane_lt_four line) (lane_lt_four line), if_pos rfl]
    · intro k hk hne
      rw [byte_lane_SET_BYTE w _ prio k (lane_lt_four line) hk, if_neg hne]
  refine ⟨?_, ?_, ⟨by decide, by decide⟩, ⟨by decide, by decide⟩, ⟨by decide, by decide⟩⟩
  · intro line w h0 hw
    exact ⟨int_and_three line, int_shr_two line, irq_priority_peripheral d line prio w h0 hw,
      hlanes line w⟩
  · intro line w hlo hhi hw
    exact ⟨int_and_three line, int_shr_two (line + 12), ⟨by omega, by omega⟩,
      irq_priority_core d line prio w hhi hw, hlanes line w⟩

/-- Witness for C8 on the sample device: line 30 is lane 2 of `NVIC.IPR[7]`
and line -5 is lane 3 of `SCB.SHPR[1]`. -/
theorem irq_priority_selects_lane_witness :
    (irq_priority sample_dev 30 0x1C0 =
        some ({ sample_dev with IPR := [0x01020304, 0, 0, 0, 0, 0, 0, 0xF0C0D0C0] },
          [Event.read (Reg.NVIC_IPR 7) 0xF0E0D0C0, Event.write (Reg.NVIC_IPR 7) 0xF0C0D0C0])) ∧
    (irq_priority sample_dev (-5) 0x1C0 =
        some ({ sample_dev with SHPR := [0x11223344, 0xC0667788, 0x99AABBCC] },
          [Event.read (Reg.SCB_SHPR 1) 0x55667788, Event.write (Reg.SCB_SHPR 1) 0xC0667788])) :=
  ⟨((irq_priority_selects_lane sample_dev 0x1C0).1 30 0xF0E0D0C0 (by decide) (by decide)).2.2.1,
   ((irq_priority_selects_lane sample_dev 0x1C0).2.1 (-5) 0x55667788 (by decide) (by decide)
      (by decide)).2.2.2.1⟩

/-- C9, as stated, fails: the line -13 is negative, yet the word it indexes is
`SCB.SHPR[-1]`, which is no word of the `SCB.SHPR` block; and on a device with
eight `NVIC.IPR` words the non-negative line 32 indexes `NVIC.IPR[8]`, which is
no word of the `NVIC.IPR` block. -/
theorem irq_priority_outside_its_block :
    int_shr (-13 + 12) 2 = -1 ∧
    word_at sample_dev.SHPR (int_shr (-13 + 12) 2) = none ∧
    irq_priority sample_dev (-13) 0xFF = none ∧
    int_shr 32 2 = 8 ∧
    sample_dev.IPR.length = 8 ∧
    irq_priority sample_dev 32 0xFF = none := by
  refine ⟨by decide, by decide, by decide, by decide, by decide, by decide⟩

/-- C9, amended: the core-exception and peripheral priority registers do not
alias.  For every line in `[-12, -1]`, the `SCB.SHPR` block having its three
words, `irq_priority` reads and writes one word of that block only and leaves
every `NVIC.IPR` word unchanged; for every non-negative line whose word
`line / 4` lies in the `NVIC.IPR` block it reads and writes one word of that
block only and leaves every `SCB.SHPR` word unchanged; in particular
`irq_priority(-1, 0xFF)` and `irq_priority(0, 0xFF)` write two distinct
registers, `SCB.SHPR[2]` and `NVIC.IPR[0]`.  For every line below -12 the
indexed word `SCB.SHPR[(line + 12) >> 2]` has a negative index, and for every
non-negative line with `line >> 2` at or past the end of `NVIC.IPR` the
indexed word is outside the block: such a call accesses no word of the named
block. -/
theorem irq_priority_blocks_do_not_alias (d : Dev) :
    (∀ (line : Int) (prio : Nat), -12 ≤ line → line < 0 → d.SHPR.length = 3 →
      ∃ i w w1, i < d.SHPR.length ∧
        irq_priority d line prio =
          some ({ d with SHPR := d.SHPR.set i w1 },
            [Event.read (Reg.SCB_SHPR i) w, Event.write (Reg.SCB_SHPR i) w1]) ∧
        ({ d with SHPR := d.SHPR.set i w1 } : Dev).IPR = d.IPR) ∧
    (∀ (line : Int) (prio : Nat), 0 ≤ line → line < 4 * (d.IPR.length : Int) →
      ∃ i w w1, i < d.IPR.length ∧
        irq_priority d line prio =
          some ({ d with IPR := d.IPR.set i w1 },
            [Event.read (Reg.NVIC_IPR i) w, Event.write (Reg.NVIC_IPR i) w1]) ∧
        ({ d with IPR := d.IPR.set i w1 } : Dev).SHPR = d.SHPR) ∧
    (d.SHPR.length = 3 → 0 < d.IPR.length →
      ∃ w w1 v v1,
        irq_priority d (-1) 0xFF =
          some ({ d with SHPR := d.SHPR.set 2 w1 },
            [Event.read (Reg.SCB_SHPR 2) w, Event.write (Reg.SCB_SHPR 2) w1]) ∧
        irq_priority d 0 0xFF =
          some ({ d with IPR := d.IPR.set 0 v1 },
            [Event.read (Reg.NVIC_IPR 0) v, Event.write (Reg.NVIC_IPR 0) v1]) ∧
        Reg.SCB_SHPR 2 ≠ Reg.NVIC_IPR 0) ∧
    (∀ (line : Int) (prio : Nat), line < -12 →
      int_shr (line + 12) 2 < 0 ∧
      word_at d.SHPR (int_shr (line + 12) 2) = none ∧
      irq_priority d line prio = none) ∧
    (∀ (line : Int) (prio : Nat), 0 ≤ line → 4 * (d.IPR.length : Int) ≤ line →
      (d.IPR.length : Int) ≤ int_shr line 2 ∧
      word_at d.IPR (int_shr line 2) = none ∧
      irq_priority d line prio = none) := by
  have hcore : ∀ (line : Int) (prio : Nat), -12 ≤ line → line < 0 → d.SHPR.length = 3 →
      ∃ w, irq_priority d line prio =
        some ({ d with
                SHPR := d.SHPR.set ((line + 12) / 4).toNat (SET_BYTE w (line % 4).toNat prio) },
          [Event.read (Reg.SCB_SHPR ((line + 12) / 4).toNat) w,
           Event.write (Reg.SCB_SHPR ((line + 12) / 4).toNat)
             (SET_BYTE w (line % 4).toNat prio)]) := by
    intro line prio hlo hhi hlen
    have hi : ((line + 12) / 4).toNat < d.SHPR.length := by omega
    exact ⟨_, irq_priority_core d line prio _ hhi (word_at_inside d.SHPR _ (by omega) hi)⟩
  have hper : ∀ (line : Int) (prio : Nat), 0 ≤ line → line < 4 * (d.IPR.length : Int) →
      ∃ w, irq_priority d line prio =
        some ({ d with IPR := d.IPR.set (line / 4).toNat (SET_BYTE w (line % 4).toNat prio) },
          [Event.read (Reg.NVIC_IPR (line / 4).toNat) w,
           Event.write (Reg.NVIC_IPR (line / 4).toNat)
             (SET_BYTE w (line % 4).toNat prio)]) := by
    intro line prio hlo hhi
    have hi : (line / 4).toNat < d.IPR.length := by omega
    exact ⟨_, irq_priority_peripheral d line prio _ hlo (word_at_inside d.IPR _ (by omega) hi)⟩
  refine ⟨?_, ?_, ?_, ?_, ?_⟩
  · intro line prio hlo hhi hlen
    obtain ⟨w, hw⟩ := hcore line prio hlo hhi hlen
    exact ⟨_, w, _, by omega, hw, rfl⟩
  · intro line prio hlo hhi
    obtain ⟨w, hw⟩ := hper line prio hlo hhi
    exact ⟨_, w, _, by omega, hw, rfl⟩
  · intro hlen hpos
    obtain ⟨w, hw⟩ := hcore (-1) 0xFF (by decide) (by decide) hlen
    obtain ⟨v, hv⟩ := hper 0 0xFF (by decide) (by omega)
    exact ⟨w, _, v, _, hw, hv, by decide⟩
  · intro line prio hlt
    have hidx : int_shr (line + 12) 2 < 0 := by
      rw [int_shr_two]
      omega
    have hnone : word_at d.SHPR (int_shr (line + 12) 2) = none := by
      unfold word_at
      rw [if_neg (by omega)]
    refine ⟨hidx, hnone, ?_⟩
    unfold irq_priority
    rw [if_pos (by omega)]
    simp only [hnone]
  · intro line prio h0 hge
    have hidx : (d.IPR.length : Int) ≤ int_shr line 2 := by
      rw [int_shr_two]
      omega
    have hnone : word_at d.IPR (int_shr line 2) = none := by
      unfold word_at
      rw [if_pos (by omega), List.getElem?_eq_none (by omega)]
    refine ⟨hidx, hnone, ?_⟩
    unfold irq_priority
    rw [if_neg (by omega)]
    simp only [hnone]

/-- Witness for amended C9 on the sample device (three `SHPR` words, eight
`IPR` words). -/
theorem irq_priority_blocks_do_not_alias_witness :
    (sample_dev.SHPR.length = 3 ∧ 0 < sample_dev.IPR.length) ∧
    ∃ w w1 v v1,
      irq_priority sample_dev (-1) 0xFF =
        some ({ sample_dev with SHPR := sample_dev.SHPR.set 2 w1 },
          [Event.read (Reg.SCB_SHPR 2) w, Event.write (Reg.SCB_SHPR 2) w1]) ∧
      irq_priority sample_dev 0 0xFF =
        some ({ sample_dev with IPR := sample_dev.IPR.set 0 v1 },
          [Event.read (Reg.NVIC_IPR 0) v, Event.write (Reg.NVIC_IPR 0) v1]) ∧
      Reg.SCB_SHPR 2 ≠ Reg.NVIC_IPR 0 :=
  ⟨by decide, (irq_priority_blocks_do_not_alias sample_dev).2.2.1 (by decide) (by decide)⟩

/-- C10: for every line `n` with `0 <= n < 32` and every prior enable state,
`enable_irq(n)` makes the single write to `NVIC.ISER[0]` of the word whose
only set bit is bit `n`, so that under the write-1-to-set semantics of the
register bit `n` of the enable state is 1 afterwards and every other bit keeps
its previous value. -/
theorem enable_irq_sets_exactly_bit (d : Dev) (n : Int) (h0 : 0 ≤ n) (h32 : n < 32) :
    ∃ d1, enable_irq d n = some (d1, [Event.write (Reg.NVIC_ISER 0) (2 ^ n.toNat)]) ∧
      (∀ k, (2 ^ n.toNat).testBit k = decide (k = n.toNat)) ∧
      d1.enabled = d.enabled ||| 2 ^ n.toNat ∧
      d1.enabled.testBit n.toNat = true ∧
      (∀ k, k ≠ n.toNat → d1.enabled.testBit k = d.enabled.testBit k) ∧
      d1.SHPR = d.SHPR ∧ d1.IPR = d.IPR ∧ d1.pending = d.pending := by
  have hbit : BIT n = some (2 ^ n.toNat) := by
    unfold BIT
    rw [if_pos ⟨h0, h32⟩, Nat.one_shiftLeft]
  have htb : ∀ k, (2 ^ n.toNat).testBit k = decide (k = n.toNat) := by
    intro k
    rw [Nat.testBit_two_pow]
    by_cases h : k = n.toNat
    · simp [h]
    · have h2 : ¬ n.toNat = k := fun e => h e.symm
      simp [h, h2]
  refine ⟨d.write_ISER0 (2 ^ n.toNat), ?_, htb, rfl, ?_, ?_, rfl, rfl, rfl⟩
  · unfold enable_irq
    rw [hbit]
  · show (d.enabled ||| 2 ^ n.toNat).testBit n.toNat = true
    rw [Nat.testBit_or, htb]
    simp
  · intro k hk
    show (d.enabled ||| 2 ^ n.toNat).testBit k = d.enabled.testBit k
    rw [Nat.testBit_or, htb]
    simp [hk]

/-- Witness for C10: enabling line 2 on the sample device, whose enable state
is 0x105 (bits 0, 2 and 8 set). -/
theorem enable_irq_sets_exactly_bit_witness :
    ((0 : Int) ≤ 2 ∧ (2 : Int) < 32) ∧
    ∃ d1, enable_irq sample_dev 2 =
        some (d1, [Event.write (Reg.NVIC_ISER 0) (2 ^ (2 : Int).toNat)]) ∧
      (∀ k, (2 ^ (2 : Int).toNat).testBit k = decide (k = (2 : Int).toNat)) ∧
      d1.enabled = sample_dev.enabled ||| 2 ^ (2 : Int).toNat ∧
      d1.enabled.testBit (2 : Int).toNat = true ∧
      (∀ k, k ≠ (2 : Int).toNat → d1.enabled.testBit k = sample_dev.enabled.testBit k) ∧
      d1.SHPR = sample_dev.SHPR ∧ d1.IPR = sample_dev.IPR ∧
      d1.pending = sample_dev.pending :=
  ⟨by decide, enable_irq_sets_exactly_bit sample_dev 2 (by decide) (by decide)⟩

/-- The word `BIT(i)` is `2 ^ i` for `0 <= i < 32`. -/
theorem BIT_inside (i : Int) (h0 : 0 ≤ i) (h32 : i < 32) : BIT i = some (2 ^ i.toNat) := by
  unfold BIT
  rw [if_pos ⟨h0, h32⟩, Nat.one_shiftLeft]

/-- The word `2 ^ n` has bit `n` set and no other. -/
theorem testBit_two_pow_eq (n k : Nat) : (2 ^ n).testBit k = decide (k = n) := by
  rw [Nat.testBit_two_pow]
  by_cases h : k = n
  · simp [h]
  · have h2 : ¬ n = k := fun e => h e.symm
    simp [h, h2]

/-- Clearing the bits of a word twice is clearing them once. -/
theorem and_mask_twice (e c : Nat) : (e &&& c) &&& c = e &&& c := by
  rw [Nat.land_assoc, Nat.and_self]

/-- Setting the bits of a word twice is setting them once. -/
theorem or_mask_twice (e v : Nat) : (e ||| v) ||| v = e ||| v := by
  rw [Nat.lor_assoc, Nat.or_self]

/-- C11: for every line with `0 <= line < 32`, each of `enable_irq`,
`disable_irq` and `clear_pending` performs exactly one register write and no
register read: it stores `2 ^ line`, a word with exactly one bit set, into
`NVIC.ISER[0]`, `NVIC.ICER[0]` and `NVIC.ICPR[0]` respectively and writes no
other register; and calling the same operation twice with the same line
leaves the same state as calling it once. -/
theorem nvic_bit_operations_single_write (d : Dev) (line : Int) (h0 : 0 ≤ line)
    (h32 : line < 32) :
    (∀ k, (2 ^ line.toNat).testBit k = decide (k = line.toNat)) ∧
    (∃ d1, enable_irq d line =
        some (d1, [Event.write (Reg.NVIC_ISER 0) (2 ^ line.toNat)]) ∧
      enable_irq d1 line = some (d1, [Event.write (Reg.NVIC_ISER 0) (2 ^ line.toNat)])) ∧
    (∃ d1, disable_irq d line =
        some (d1, [Event.write (Reg.NVIC_ICER 0) (2 ^ line.toNat)]) ∧
      disable_irq d1 line = some (d1, [Event.write (Reg.NVIC_ICER 0) (2 ^ line.toNat)])) ∧
    (∃ d1, clear_pending d line =
        some (d1, [Event.write (Reg.NVIC_ICPR 0) (2 ^ line.toNat)]) ∧
      clear_pending d1 line =
        some (d1, [Event.write (Reg.NVIC_ICPR 0) (2 ^ line.toNat)])) := by
  have hbit := BIT_inside line h0 h32
  refine ⟨testBit_two_pow_eq line.toNat, ⟨d.write_ISER0 (2 ^ line.toNat), ?_, ?_⟩,
    ⟨d.write_ICER0 (2 ^ line.toNat), ?_, ?_⟩, ⟨d.write_ICPR0 (2 ^ line.toNat), ?_, ?_⟩⟩
  · unfold enable_irq
    rw [hbit]
  · unfold enable_irq
    rw [hbit]
    simp only [Dev.write_ISER0, or_mask_twice]
  · unfold disable_irq
    rw [hbit]
  · unfold disable_irq
    rw [hbit]
    simp only [Dev.write_ICER0, and_mask_twice]
  · unfold clear_pending
    rw [hbit]
  · unfold clear_pending
    rw [hbit]
    simp only [Dev.write_ICPR0, and_mask_twice]

/-- Witness for C11: line 8 on the sample device. -/
theorem nvic_bit_operations_single_write_witness :
    ((0 : Int) ≤ 8 ∧ (8 : Int) < 32) ∧
    (∃ d1, enable_irq sample_dev 8 = some (d1, [Event.write (Reg.NVIC_ISER 0) 0x100]) ∧
      enable_irq d1 8 = some (d1, [Event.write (Reg.NVIC_ISER 0) 0x100])) ∧
    (∃ d1, disable_irq sample_dev 8 = some (d1, [Event.write (Reg.NVIC_ICER 0) 0x100]) ∧
      disable_irq d1 8 = some (d1, [Event.write (Reg.NVIC_ICER 0) 0x100])) ∧
    (∃ d1, clear_pending sample_dev 8 = some (d1, [Event.write (Reg.NVIC_ICPR 0) 0x100]) ∧
      clear_pending d1 8 = some (d1, [Event.write (Reg.NVIC_ICPR 0) 0x100])) :=
  ⟨by decide, (nvic_bit_operations_single_write sample_dev 8 (by decide) (by decide)).2⟩

/-! ## GPIO -/

/-- C12: for every pin with `0 <= pin < 32`, `gpio_dir(pin, dir)` performs a
single write of the one-bit word `2 ^ pin`, to `GPIO.DIRSET` when `dir != 0`
and to `GPIO.DIRCLR` when `dir = 0`, and `gpio_out(pin, value)` performs a
single write of `2 ^ pin`, to `GPIO.OUTSET` when `value != 0` and to
`GPIO.OUTCLR` when `value = 0`; neither accesses any other register.  In
particular `gpio_dir(5, 1)` writes exactly bit 5 (0x20) to the direction-set
register and `gpio_out(5, 0)` writes exactly bit 5 to the output-clear
register. -/
theorem gpio_single_bit_write (g : Gpio) (pin : Nat) (hpin : pin < 32) :
    (∀ k, (2 ^ pin).testBit k = decide (k = pin)) ∧
    (∀ dir, dir ≠ 0 → gpio_dir g pin dir =
      some (g.write Reg.GPIO_DIRSET (2 ^ pin), [Event.write Reg.GPIO_DIRSET (2 ^ pin)])) ∧
    (gpio_dir g pin 0 =
      some (g.write Reg.GPIO_DIRCLR (2 ^ pin), [Event.write Reg.GPIO_DIRCLR (2 ^ pin)])) ∧
    (∀ value, value ≠ 0 → gpio_out g pin value =
      some (g.write Reg.GPIO_OUTSET (2 ^ pin), [Event.write Reg.GPIO_OUTSET (2 ^ pin)])) ∧
    (gpio_out g pin 0 =
      some (g.write Reg.GPIO_OUTCLR (2 ^ pin), [Event.write Reg.GPIO_OUTCLR (2 ^ pin)])) ∧
    (∃ g1, gpio_dir g 5 1 = some (g1, [Event.write Reg.GPIO_DIRSET 0x20])) ∧
    (∃ g1, gpio_out g 5 0 = some (g1, [Event.write Reg.GPIO_OUTCLR 0x20])) := by
  have hbit : BIT (pin : Int) = some (2 ^ pin) := by
    have h := BIT_inside (pin : Int) (by omega) (by omega)
    rwa [Int.toNat_natCast] at h
  refine ⟨testBit_two_pow_eq pin, ?_, ?_, ?_, ?_, ⟨_, rfl⟩, ⟨_, rfl⟩⟩
  · intro dir hdir
    unfold gpio_dir
    rw [if_pos hdir, hbit]
  · unfold gpio_dir
    rw [if_neg (by simp), hbit]
  · intro value hvalue
    unfold gpio_out
    rw [if_pos hvalue, hbit]
  · unfold gpio_out
    rw [if_neg (by simp), hbit]

/-- Witness for C12: pin 5 on the sample port. -/
theorem gpio_single_bit_write_witness :
    (5 : Nat) < 32 ∧
    gpio_dir sample_gpio 5 1 =
      some ({ DIR := 0xFFF0, OUT := 0x4020 }, [Event.write Reg.GPIO_DIRSET 0x20]) ∧
    gpio_out sample_gpio 5 0 =
      some ({ DIR := 0xFFF0, OUT := 0x4000 }, [Event.write Reg.GPIO_OUTCLR 0x20]) :=
  ⟨by decide,
   (gpio_single_bit_write sample_gpio 5 (by decide)).2.1 1 (by decide),
   (gpio_single_bit_write sample_gpio 5 (by decide)).2.2.2.2.1⟩

/-! ## Handler slots and default binding -/

/-- From slot 2 on, no entry of the table is `__stack` or `__reset`. -/
theorem vectors_no_stack_reset_after_1 :
    ∀ i, i < 48 → 2 ≤ i →
      __vectors[i]? ≠ some (some Sym.__stack) ∧ __vectors[i]? ≠ some (some Sym.__reset) := by
  decide

/-- C13: every entry of `__vectors` other than entry 0 (`__stack`) and entry 1
(`__reset`) is either null or one of the 30 declared handler names (`nmi`,
`hardfault`, `svc`, `pendsv`, `systick` and 25 peripheral handlers), each of
which occupies exactly one slot; hence, when every handler name that the
application does not define resolves to `default_handler`, and
`default_handler` resolves to `spin` unless overridden, every non-null slot
from 2 to 47 whose handler the application did not define holds the address
of the default handler. -/
theorem vectors_undefined_handlers_default :
    ((__vectors.drop 2).all (fun e =>
        match e with
        | none => true
        | some h => handlers.contains h) = true) ∧
    handlers.length = 30 ∧
    handlers.take 5 = [Sym.nmi_handler, Sym.hardfault_handler, Sym.svc_handler,
      Sym.pendsv_handler, Sym.systick_handler] ∧
    (handlers.all (fun h => (__vectors.take 16).contains (some h)
        = decide (h ∈ handlers.take 5)) = true) ∧
    ((handlers.filter (fun h => (__vectors.drop 16).contains (some h))).length = 25) ∧
    (handlers.all (fun h => __vectors.count (some h) = 1) = true) ∧
    (∀ (app : Sym → Option Nat) (app_default : Option Nat) (spin stack reset : Nat)
        (i : Nat) (h : Sym),
      2 ≤ i → i ≤ 47 → __vectors[i]? = some (some h) → app h = none →
        (vector_image app app_default spin stack reset)[i]? =
          some (default_handler_addr app_default spin)) ∧
    (∀ spin, default_handler_addr none spin = spin) := by
  refine ⟨by decide, rfl, rfl, by decide, by decide, by decide, ?_, fun _ => rfl⟩
  intro app app_default spin stack reset i h h2 h47 hi happ
  obtain ⟨hs, hr⟩ := vectors_no_stack_reset_after_1 i (by omega) h2
  have hne1 : h ≠ Sym.__stack := by
    intro e
    rw [e] at hi
    exact hs hi
  have hne2 : h ≠ Sym.__reset := by
    intro e
    rw [e] at hi
    exact hr hi
  unfold vector_image
  rw [List.getElem?_map, hi]
  simp only [Option.map_some']
  cases h <;> first
    | exact absurd rfl hne1
    | exact absurd rfl hne2
    | simp only [link_handler, happ]

/-- Witness for C13: the application defines `uart_handler` only; slot 24
holds `timer0_handler`, so its entry is the address of `spin` (0x1235). -/
theorem vectors_undefined_handlers_default_witness :
    (2 ≤ 24 ∧ 24 ≤ 47 ∧ __vectors[24]? = some (some Sym.timer0_handler) ∧
      sample_app Sym.timer0_handler = none) ∧
    (vector_image sample_app none 0x1235 0x20004000 0x101)[24]? = some 0x1235 :=
  ⟨by decide,
   vectors_undefined_handlers_default.2.2.2.2.2.2.1 sample_app none 0x1235 0x20004000 0x101
     24 Sym.timer0_handler (by decide) (by decide) (by decide) (by decide)⟩

/-! ## Order of the boot actions -/

/-- The clock wait performs reads of `CLOCK.HFCLKSTARTED` and nothing else. -/
theorem wait_clock_reads (ready : Nat → Nat) (fuel : Nat) : ∀ (k : Nat) (polls : List Event),
    wait_clock ready fuel k = some polls →
    ∀ e, e ∈ polls → ∃ v, e = Event.read Reg.CLOCK_HFCLKSTARTED v := by
  induction fuel with
  | zero => intro k polls h; cases h
  | succ f ih =>
    intro k polls h e he
    rw [wait_clock] at h
    split at h
    · cases h
      rw [List.mem_singleton] at he
      exact ⟨_, he⟩
    · cases hrec : wait_clock ready f (k + 1) with
      | none => rw [hrec] at h; cases h
      | some rest =>
        rw [hrec] at h
        cases h
        rcases List.mem_cons.mp he with h1 | h2
        · exact ⟨_, h1⟩
        · exact ih (k + 1) rest hrec e h2

/-- The idle loop of `default_start` performs `pause()` and stays in the loop. -/
theorem default_start_idle (b : Bool) (k : Nat) :
    run_steps (default_start_step b) k StartPc.idle =
      (List.replicate k Event.call_pause, StartPc.idle) := by
  induction k with
  | zero => rfl
  | succ k ih =>
    rw [run_steps]
    simp only [default_start_step, ih, List.replicate_succ]

/-- C14: in the sequence of actions of `__reset` (clear `HFCLKSTARTED`, write
`HFCLKSTART = 1`, poll `HFCLKSTARTED`, `memcpy` of the data region, `memset`
of the zero region, call `__start`), `__start` is called exactly once, as the
last action, after the zero fill, which comes after the data copy; and
`__reset` does get there once the clock flag reads non-zero.  The default
entry point `default_start` calls `init` exactly once and, if `init` returns,
performs nothing but `pause()` from then on: it never reaches its end and
never calls `init` again. -/
theorem reset_starts_once_after_init (L : Layout) (ready : Nat → Nat) (m : Mem) :
    (∀ fuel m1 evs, __reset L ready fuel m = some (m1, evs) →
      ∃ polls n1 n2,
        evs = [Event.write Reg.CLOCK_HFCLKSTARTED 0, Event.write Reg.CLOCK_HFCLKSTART 1]
          ++ polls
          ++ [Event.call_memcpy L.__data_start L.__etext n1,
              Event.call_memset L.__bss_start 0 n2, Event.call_start] ∧
        (∀ e, e ∈ polls → ∃ v, e = Event.read Reg.CLOCK_HFCLKSTARTED v) ∧
        evs.count Event.call_start = 1) ∧
    ((∃ k, ready k ≠ 0) →
      ∃ fuel0, ∀ fuel, fuel0 ≤ fuel → ∃ r, __reset L ready fuel m = some r) ∧
    (∀ k, run_steps (default_start_step true) (k + 1) StartPc.entry =
      (Event.call_init :: List.replicate k Event.call_pause, StartPc.idle)) ∧
    (∀ k, run_steps (default_start_step false) (k + 1) StartPc.entry =
      ([Event.call_init], StartPc.in_init)) ∧
    (∀ b k, (run_steps (default_start_step b) k StartPc.entry).2 ≠ StartPc.returned ∧
      (run_steps (default_start_step b) (k + 1) StartPc.entry).1.count Event.call_init = 1) := by
  have htrue : ∀ k, run_steps (default_start_step true) (k + 1) StartPc.entry =
      (Event.call_init :: List.replicate k Event.call_pause, StartPc.idle) := by
    intro k
    rw [run_steps]
    simp only [default_start_step, default_start_idle, if_true]
  have hfalse : ∀ k, run_steps (default_start_step false) (k + 1) StartPc.entry =
      ([Event.call_init], StartPc.in_init) := by
    intro k
    rw [run_steps]
    cases k <;> simp [default_start_step, run_steps]
  refine ⟨?_, ?_, htrue, hfalse, ?_⟩
  · intro fuel m1 evs h
    unfold __reset at h
    cases hw : wait_clock ready fuel 0 with
    | none => rw [hw] at h; cases h
    | some polls =>
      rw [hw] at h
      simp only [Option.some.injEq, Prod.mk.injEq] at h
      have hreads := wait_clock_reads ready fuel 0 polls hw
      refine ⟨polls, _, _, h.2.symm, hreads, ?_⟩
      have hcount : polls.count Event.call_start = 0 := by
        rw [List.count_eq_zero]
        intro hmem
        obtain ⟨v, hv⟩ := hreads _ hmem
        cases hv
      rw [← h.2]
      simp [List.count_append, hcount, List.count_cons]
  · intro hclk
    obtain ⟨k, hk⟩ := hclk
    refine ⟨k + 1, ?_⟩
    intro fuel hfuel
    have hk0 : ready (0 + k) ≠ 0 := by rwa [Nat.zero_add]
    obtain ⟨polls, hpolls⟩ := wait_clock_returns ready k 0 fuel hk0 (by omega)
    unfold __reset
    rw [hpolls]
    exact ⟨_, rfl⟩
  · intro b k
    constructor
    · cases k with
      | zero => simp [run_steps]
      | succ j =>
        cases b
        · rw [hfalse]
          simp
        · rw [htrue]
          simp
    · cases b
      · rw [hfalse]
        simp
      · rw [htrue]
        simp [List.count_cons, List.count_replicate]

/-- Witness for C14: on the sample layout the clock flag is seen at the third
read and `__reset` calls `__start` with fuel 3 or more. -/
theorem reset_starts_once_after_init_witness :
    (∃ k, sample_ready k ≠ 0) ∧
    (∃ fuel0, ∀ fuel, fuel0 ≤ fuel →
      ∃ r, __reset sample_layout sample_ready fuel sample_mem = some r) :=
  have hclk : ∃ k, sample_ready k ≠ 0 := ⟨2, by decide⟩
  ⟨hclk, (reset_starts_once_after_init sample_layout sample_ready sample_mem).2.1 hclk⟩

/-! ## The direction rule of memmove -/

theorem ptrAdd_add_one (p k : Nat) : ptrAdd (ptrAdd p k) 1 = ptrAdd p (k + 1) := by
  unfold ptrAdd
  rw [Nat.mod_add_mod]
  rfl

/-- The forward loop, seen from iteration `k` on: when no iteration reads an
address that an earlier one wrote, iteration `i` reads at offset `i`, writes
at offset `i`, and moves the byte that the memory held at the start. -/
theorem copy_up_steps_spec (d s N : Nat)
    (hfresh : ∀ i j, j < i → i < N → ptrAdd s i ≠ ptrAdd d j) (n : Nat) :
    ∀ (k : Nat) (m m0 : Mem), k + n ≤ N →
      (∀ i, k ≤ i → i < N → m (ptrAdd s i) = m0 (ptrAdd s i)) →
      copy_up_steps n (ptrAdd d k) (ptrAdd s k) m =
        (List.range' k n).map
          (fun i => { rd := ptrAdd s i, wr := ptrAdd d i, val := m0 (ptrAdd s i) }) := by
  induction n with
  | zero => intro k m m0 _ _; rfl
  | succ n ih =>
    intro k m m0 hk hm
    rw [copy_up_steps, ptrAdd_add_one, ptrAdd_add_one, List.range'_succ, List.map_cons,
      hm k (Nat.le_refl k) (by omega)]
    congr 1
    apply ih (k + 1) _ m0 (by omega)
    intro i hi hiN
    rw [store_other _ _ _ _ (hfresh i k (by omega) hiN)]
    exact hm i (by omega) hiN

/-- The backward loop, started at the ends of the ranges: when no iteration
reads an address that an earlier one (a higher index) wrote, the iterations
run through the indices `n-1` down to 0 and each moves the byte that the
memory held at the start. -/
theorem copy_down_steps_spec (d s : Nat) (n : Nat) :
    ∀ (m m0 : Mem),
      (∀ i j, i < j → j < n → ptrAdd s i ≠ ptrAdd d j) →
      (∀ i, i < n → m (ptrAdd s i) = m0 (ptrAdd s i)) →
      copy_down_steps n (ptrAdd d n) (ptrAdd s n) m =
        (List.range n).reverse.map
          (fun i => { rd := ptrAdd s i, wr := ptrAdd d i, val := m0 (ptrAdd s i) }) := by
  induction n with
  | zero => intro m m0 _ _; rfl
  | succ n ih =>
    intro m m0 hfresh hm
    rw [copy_down_steps, ptrPred_ptrAdd_succ, ptrPred_ptrAdd_succ, List.range_succ,
      List.reverse_append, List.reverse_singleton, List.singleton_append, List.map_cons,
      hm n (Nat.lt_succ_self n)]
    congr 1
    apply ih _ m0
    · intro i j hij hjn
      exact hfresh i j hij (Nat.lt_succ_of_lt hjn)
    · intro i hi
      rw [store_other _ _ _ _ (hfresh i n hi (Nat.lt_succ_self n))]
      exact hm i (Nat.lt_succ_of_lt hi)

/-- The element number `t` of `List.range n`. -/
theorem range_at (n t x : Nat) (h : (List.range n)[t]? = some x) : t < n ∧ x = t := by
  obtain ⟨h1, h2⟩ := List.getElem?_eq_some_iff.mp h
  simp at h1 h2
  omega

/-- The element number `t` of `List.range n` reversed. -/
theorem range_reverse_at (n t x : Nat) (h : (List.range n).reverse[t]? = some x) :
    t < n ∧ x = n - 1 - t := by
  have ht : t < n := by
    obtain ⟨h1, _⟩ := List.getElem?_eq_some_iff.mp h
    simpa using h1
  rw [List.getElem?_reverse (by simpa using ht), List.length_range] at h
  have h2 := range_at n (n - 1 - t) x h
  exact ⟨ht, h2.2⟩

/-- The addresses of the forward loop, seen from iteration `k` on: iteration
`i` reads at offset `i` of the source and writes at offset `i` of the
destination, whatever the memory holds. -/
theorem copy_up_steps_addrs (d s : Nat) (n : Nat) : ∀ (k : Nat) (m : Mem),
    (copy_up_steps n (ptrAdd d k) (ptrAdd s k) m).map (fun st => (st.rd, st.wr)) =
      (List.range' k n).map (fun i => (ptrAdd s i, ptrAdd d i)) := by
  induction n with
  | zero => intro k m; rfl
  | succ n ih =>
    intro k m
    rw [copy_up_steps, List.map_cons, ptrAdd_add_one, ptrAdd_add_one, List.range'_succ,
      List.map_cons, ih (k + 1)]

/-- The addresses of the backward loop, started at the ends of the ranges: the
iterations run through the offsets `n-1` down to 0, whatever the memory
holds. -/
theorem copy_down_steps_addrs (d s : Nat) (n : Nat) : ∀ (m : Mem),
    (copy_down_steps n (ptrAdd d n) (ptrAdd s n) m).map (fun st => (st.rd, st.wr)) =
      (List.range n).reverse.map (fun i => (ptrAdd s i, ptrAdd d i)) := by
  induction n with
  | zero => intro m; rfl
  | succ n ih =>
    intro m
    rw [copy_down_steps, List.map_cons, ptrPred_ptrAdd_succ, ptrPred_ptrAdd_succ,
      List.range_succ, List.reverse_append, List.reverse_singleton, List.singleton_append,
      List.map_cons, ih]

/-- The steps of `memmove` on ranges `[dest, dest+n)` and `[src, src+n)` inside
the address space: the indices in the order of the direction rule, each step
moving the byte that the memory held before the call; no step reads an address
that an earlier step has written. -/
theorem memmove_steps_inside (m : Mem) (dest src n : Nat)
    (hd : dest + n ≤ WORD) (hs : src + n ≤ WORD) :
    (dest ≤ src → memmove_steps m dest src n =
      (List.range n).map
        (fun i => { rd := src + i, wr := dest + i, val := m (src + i) })) ∧
    (¬ dest ≤ src → memmove_steps m dest src n =
      (List.range n).reverse.map
        (fun i => { rd := src + i, wr := dest + i, val := m (src + i) })) ∧
    (∀ (t u : Nat) (st su : CopyStep), u < t → (memmove_steps m dest src n)[t]? = some st →
      (memmove_steps m dest src n)[u]? = some su → st.rd ≠ su.wr) ∧
    (∀ st, st ∈ memmove_steps m dest src n → st.val = m st.rd) := by
  have hfun : ∀ i, i < n →
      ({ rd := ptrAdd src i, wr := ptrAdd dest i, val := m (ptrAdd src i) } : CopyStep) =
        { rd := src + i, wr := dest + i, val := m (src + i) } := by
    intro i hi
    rw [ptrAdd_of_lt src i (by omega), ptrAdd_of_lt dest i (by omega)]
  have hup : dest ≤ src → memmove_steps m dest src n =
      (List.range n).map
        (fun i => { rd := src + i, wr := dest + i, val := m (src + i) }) := by
    intro hle
    unfold memmove_steps
    rw [if_pos hle]
    cases n with
    | zero => rfl
    | succ k =>
      have h0 := copy_up_steps_spec dest src (k + 1)
        (by
          intro i j hji hi
          rw [ptrAdd_of_lt src i (by omega), ptrAdd_of_lt dest j (by omega)]
          omega)
        (k + 1) 0 m m (by omega) (fun _ _ _ => rfl)
      rw [ptrAdd_zero dest (by omega), ptrAdd_zero src (by omega)] at h0
      rw [h0, List.range_eq_range']
      apply List.map_congr_left
      intro i hi
      rw [List.mem_range'_1] at hi
      exact hfun i (by omega)
  have hdown : ¬ dest ≤ src → memmove_steps m dest src n =
      (List.range n).reverse.map
        (fun i => { rd := src + i, wr := dest + i, val := m (src + i) }) := by
    intro hgt
    unfold memmove_steps
    rw [if_neg hgt]
    rw [copy_down_steps_spec dest src n m m
      (by
        intro i j hij hj
        rw [ptrAdd_of_lt src i (by omega), ptrAdd_of_lt dest j (by omega)]
        omega)
      (fun _ _ => rfl)]
    apply List.map_congr_left
    intro i hi
    rw [List.mem_reverse, List.mem_range] at hi
    exact hfun i hi
  refine ⟨hup, hdown, ?_, ?_⟩
  · intro t u st su hut ht hu
    by_cases hle : dest ≤ src
    · rw [hup hle, List.getElem?_map] at ht hu
      cases hrt : (List.range n)[t]? with
      | none => rw [hrt] at ht; cases ht
      | some x =>
        cases hru : (List.range n)[u]? with
        | none => rw [hru] at hu; cases hu
        | some y =>
          rw [hrt] at ht
          rw [hru] at hu
          cases ht
          cases hu
          have h1 := range_at n t x hrt
          have h2 := range_at n u y hru
          show src + x ≠ dest + y
          omega
    · rw [hdown hle, List.getElem?_map] at ht hu
      cases hrt : (List.range n).reverse[t]? with
      | none => rw [hrt] at ht; cases ht
      | some x =>
        cases hru : (List.range n).reverse[u]? with
        | none => rw [hru] at hu; cases hu
        | some y =>
          rw [hrt] at ht
          rw [hru] at hu
          cases ht
          cases hu
          have h1 := range_reverse_at n t x hrt
          have h2 := range_reverse_at n u y hru
          show src + x ≠ dest + y
          omega
  · intro st hst
    by_cases hle : dest ≤ src
    · rw [hup hle, List.mem_map] at hst
      obtain ⟨i, _, hi⟩ := hst
      rw [← hi]
    · rw [hdown hle, List.mem_map] at hst
      obtain ⟨i, _, hi⟩ := hst
      rw [← hi]

/-- C15: `memmove` follows the direction rule and never reads an
already-overwritten byte.  For every call, when `dest <= src` its steps copy
the indices 0, 1, ..., n-1 in that order, otherwise the indices n-1, n-2,
..., 0 (step `i` reads the source at offset `i` and writes the destination at
offset `i`, addresses as the machine computes them).  For every call on ranges
`[dest, dest+n)` and `[src, src+n)` that lie inside the address space, as the
ranges of objects do, at every step the source address being read has not been
written by any earlier step of the call, and every byte read is therefore the
value it had before the call. -/
theorem memmove_direction_rule (m : Mem) (dest src n : Nat)
    (hd : dest < WORD) (hs : src < WORD) :
    (dest ≤ src →
      (memmove_steps m dest src n).map (fun st => (st.rd, st.wr)) =
        (List.range n).map (fun i => (ptrAdd src i, ptrAdd dest i))) ∧
    (¬ dest ≤ src →
      (memmove_steps m dest src n).map (fun st => (st.rd, st.wr)) =
        (List.range n).reverse.map (fun i => (ptrAdd src i, ptrAdd dest i))) ∧
    (dest + n ≤ WORD → src + n ≤ WORD →
      (dest ≤ src → memmove_steps m dest src n =
        (List.range n).map
          (fun i => { rd := src + i, wr := dest + i, val := m (src + i) })) ∧
      (¬ dest ≤ src → memmove_steps m dest src n =
        (List.range n).reverse.map
          (fun i => { rd := src + i, wr := dest + i, val := m (src + i) })) ∧
      (∀ (t u : Nat) (st su : CopyStep), u < t →
        (memmove_steps m dest src n)[t]? = some st →
        (memmove_steps m dest src n)[u]? = some su → st.rd ≠ su.wr) ∧
      (∀ st, st ∈ memmove_steps m dest src n → st.val = m st.rd)) := by
  refine ⟨?_, ?_, fun hdn hsn => memmove_steps_inside m dest src n hdn hsn⟩
  · intro hle
    unfold memmove_steps
    rw [if_pos hle]
    have h := copy_up_steps_addrs dest src n 0 m
    rw [ptrAdd_zero dest hd, ptrAdd_zero src hs, ← List.range_eq_range'] at h
    exact h
  · intro hgt
    unfold memmove_steps
    rw [if_neg hgt]
    exact copy_down_steps_addrs dest src n m

/-- Witness for C15: a backward copy over two overlapping ranges. -/
theorem memmove_direction_rule_witness :
    ((0x102 : Nat) < WORD ∧ (0x100 : Nat) < WORD ∧ ¬ 0x102 ≤ 0x100 ∧
      0x102 + 4 ≤ WORD ∧ 0x100 + 4 ≤ WORD) ∧
    (memmove_steps sample_mem 0x102 0x100 4).map (fun st => (st.rd, st.wr)) =
      (List.range 4).reverse.map (fun i => (ptrAdd 0x100 i, ptrAdd 0x102 i)) ∧
    memmove_steps sample_mem 0x102 0x100 4 =
      (List.range 4).reverse.map
        (fun i => { rd := 0x100 + i, wr := 0x102 + i, val := sample_mem (0x100 + i) }) ∧
    (∀ st, st ∈ memmove_steps sample_mem 0x102 0x100 4 → st.val = sample_mem st.rd) :=
  have h := memmove_direction_rule sample_mem 0x102 0x100 4 (by decide) (by decide)
  have h3 := h.2.2 (by decide) (by decide)
  ⟨by decide, h.2.1 (by decide), h3.2.1 (by decide), h3.2.2.2⟩

/-! ## Short circuit of memcmp -/

/-- When the ranges first differ at index `k`, every access of the comparison
loop is a load at an index not above `k` of one of the two ranges. -/
theorem memcmp_loop_trace_first_diff (n : Nat) : ∀ (p q : Nat) (m : Mem) (k : Nat),
    p < WORD → q < WORD → k < n →
    (∀ i, i < k → m (ptrAdd p i) = m (ptrAdd q i)) →
    m (ptrAdd p k) ≠ m (ptrAdd q k) →
    ∀ x, x ∈ memcmp_loop_trace n p q m →
      ∃ i, i ≤ k ∧ (x = Access.load (ptrAdd p i) ∨ x = Access.load (ptrAdd q i)) := by
  induction n with
  | zero => intro p q m k _ _ hk; exact absurd hk (Nat.not_lt_zero k)
  | succ n ih =>
    intro p q m k hp hq hk heq hne x hx
    rw [memcmp_loop_trace] at hx
    rcases List.mem_cons.mp hx with h1 | hx
    · exact ⟨0, Nat.zero_le k, Or.inl (by rw [ptrAdd_zero p hp]; exact h1)⟩
    rcases List.mem_cons.mp hx with h2 | hx
    · exact ⟨0, Nat.zero_le k, Or.inr (by rw [ptrAdd_zero q hq]; exact h2)⟩
    cases k with
    | zero =>
      rw [ptrAdd_zero p hp, ptrAdd_zero q hq] at hne
      rw [if_pos hne, ptrPred_ptrAdd_one p hp, ptrPred_ptrAdd_one q hq] at hx
      rcases List.mem_cons.mp hx with h3 | hx
      · exact ⟨0, Nat.le_refl 0, Or.inl (by rw [ptrAdd_zero p hp]; exact h3)⟩
      · rw [List.mem_singleton] at hx
        exact ⟨0, Nat.le_refl 0, Or.inr (by rw [ptrAdd_zero q hq]; exact hx)⟩
    | succ j =>
      have h0 := heq 0 (Nat.succ_pos j)
      rw [ptrAdd_zero p hp, ptrAdd_zero q hq] at h0
      rw [if_neg (not_not.mpr h0)] at hx
      obtain ⟨i, hi, hor⟩ := ih (ptrAdd p 1) (ptrAdd q 1) m j (ptrAdd_lt p 1) (ptrAdd_lt q 1)
        (Nat.lt_of_succ_lt_succ hk)
        (by
          intro i hi
          rw [ptrAdd_ptrAdd_one, ptrAdd_ptrAdd_one]
          exact heq (i + 1) (Nat.succ_lt_succ hi))
        (by
          rw [ptrAdd_ptrAdd_one, ptrAdd_ptrAdd_one]
          exact hne)
        x hx
      rw [ptrAdd_ptrAdd_one, ptrAdd_ptrAdd_one] at hor
      exact ⟨i + 1, Nat.succ_le_succ hi, hor⟩

/-- The comparison loop returns -1, 0 or 1. -/
theorem memcmp_loop_values (n : Nat) : ∀ (p q : Nat) (m : Mem),
    memcmp_loop n p q m = -1 ∨ memcmp_loop n p q m = 0 ∨ memcmp_loop n p q m = 1 := by
  induction n with
  | zero => intro p q m; exact Or.inr (Or.inl rfl)
  | succ n ih =>
    intro p q m
    rw [memcmp_loop]
    split
    · split
      · exact Or.inl rfl
      · exact Or.inr (Or.inr rfl)
    · exact ih _ _ m

/-- The comparison loop performs loads only. -/
theorem memcmp_loop_trace_loads (n : Nat) : ∀ (p q : Nat) (m : Mem) (x : Access),
    x ∈ memcmp_loop_trace n p q m → ∃ a, x = Access.load a := by
  induction n with
  | zero => intro p q m x hx; cases hx
  | succ n ih =>
    intro p q m x hx
    rw [memcmp_loop_trace] at hx
    rcases List.mem_cons.mp hx with h1 | hx
    · exact ⟨_, h1⟩
    rcases List.mem_cons.mp hx with h2 | hx
    · exact ⟨_, h2⟩
    split at hx
    · rcases List.mem_cons.mp hx with h3 | hx
      · exact ⟨_, h3⟩
      · rw [List.mem_singleton] at hx
        exact ⟨_, hx⟩
    · exact ih _ _ m x hx

/-- C16: `memcmp` short-circuits on the first mismatch: if the two sequences
first differ at index `k < n`, then `memcmp(a, b, n)` reads no byte at an
index greater than `k`, and its result is the same for every pair of sequences
that agree with `a` and `b` on the indices 0..k, whatever they contain
afterwards; moreover the result is always exactly one of -1, 0 or 1, and it is
0 for every `n <= 0` (`n` is a signed `int`) without reading any byte. -/
theorem memcmp_short_circuits :
    (∀ (m : Mem) (pp qq n k : Nat), pp < WORD → qq < WORD → k < n →
      (∀ i, i < k → m (ptrAdd pp i) = m (ptrAdd qq i)) →
      m (ptrAdd pp k) ≠ m (ptrAdd qq k) →
      (∀ x, x ∈ memcmp_trace m pp qq (n : Int) →
        ∃ i, i ≤ k ∧ (x = Access.load (ptrAdd pp i) ∨ x = Access.load (ptrAdd qq i))) ∧
      (∀ (m1 : Mem) (pp1 qq1 n1 : Nat), pp1 < WORD → qq1 < WORD → k < n1 →
        (∀ i, i ≤ k → m1 (ptrAdd pp1 i) = m (ptrAdd pp i) ∧
          m1 (ptrAdd qq1 i) = m (ptrAdd qq i)) →
        memcmp m1 pp1 qq1 (n1 : Int) = memcmp m pp qq (n : Int))) ∧
    (∀ (m : Mem) (pp qq : Nat) (n : Int),
      memcmp m pp qq n = -1 ∨ memcmp m pp qq n = 0 ∨ memcmp m pp qq n = 1) ∧
    (∀ (m : Mem) (pp qq : Nat) (n : Int), n ≤ 0 →
      memcmp m pp qq n = 0 ∧ memcmp_trace m pp qq n = []) := by
  refine ⟨?_, ?_, ?_⟩
  · intro m pp qq n k hp hq hk heq hne
    constructor
    · intro x hx
      unfold memcmp_trace at hx
      rw [Int.toNat_natCast] at hx
      exact memcmp_loop_trace_first_diff n pp qq m k hp hq hk heq hne x hx
    · intro m1 pp1 qq1 n1 hp1 hq1 hk1 hagree
      unfold memcmp
      rw [Int.toNat_natCast, Int.toNat_natCast,
        memcmp_loop_first_diff n pp qq m k hp hq hk heq hne,
        memcmp_loop_first_diff n1 pp1 qq1 m1 k hp1 hq1 hk1
          (by
            intro i hi
            rw [(hagree i (by omega)).1, (hagree i (by omega)).2]
            exact heq i hi)
          (by
            rw [(hagree k (Nat.le_refl k)).1, (hagree k (Nat.le_refl k)).2]
            exact hne),
        (hagree k (Nat.le_refl k)).1, (hagree k (Nat.le_refl k)).2]
  · intro m pp qq n
    exact memcmp_loop_values n.toNat pp qq m
  · intro m pp qq n hn
    have h0 : n.toNat = 0 := by omega
    unfold memcmp memcmp_trace
    rw [h0]
    exact ⟨rfl, rfl⟩

/-- Witness for C16: the ranges at 0 and at 769 of the sample memory first
differ at index 2; comparing 4 bytes gives the result of comparing 3 bytes of
another memory that agrees on the indices 0..2. -/
theorem memcmp_short_circuits_witness :
    ((0 : Nat) < WORD ∧ (769 : Nat) < WORD ∧ 2 < 4 ∧
      sample_mem (ptrAdd 0 2) ≠ sample_mem (ptrAdd 769 2)) ∧
    (∀ x, x ∈ memcmp_trace sample_mem 0 769 ((4 : Nat) : Int) →
      ∃ i, i ≤ 2 ∧ (x = Access.load (ptrAdd 0 i) ∨ x = Access.load (ptrAdd 769 i))) ∧
    memcmp (fun a => if a = 3 then 77 else sample_mem a) 0 769 ((3 : Nat) : Int) =
      memcmp sample_mem 0 769 ((4 : Nat) : Int) :=
  have h := memcmp_short_circuits.1 sample_mem 0 769 4 2 (by decide) (by decide) (by decide)
    (by decide) (by decide)
  ⟨by decide, h.1,
   h.2 (fun a => if a = 3 then 77 else sample_mem a) 0 769 3 (by decide) (by decide)
     (by decide) (by decide)⟩

/-! ## The default fault handler and the delay loop -/

/-- At the program point reached after `k` actions, `spin` performs the action
number `k` and goes to the program point reached after `k + 1` actions. -/
theorem spin_step_at (k : Nat) : spin_step (spin_pc k) = some (spin_action k, spin_pc (k + 1)) := by
  rcases k with _ | _ | j
  · rfl
  · rfl
  · have e1 : j + 1 + 1 - 2 = j := by omega
    have e2 : j + 1 + 1 + 1 - 2 = j + 1 := by omega
    have n1 : ¬ (j + 1 + 1 = 0) := by omega
    have n2 : ¬ (j + 1 + 1 = 1) := by omega
    have n3 : ¬ (j + 1 + 1 + 1 = 0) := by omega
    have n4 : ¬ (j + 1 + 1 + 1 = 1) := by omega
    have hr : j % 4 = 0 ∨ j % 4 = 1 ∨ j % 4 = 2 ∨ j % 4 = 3 := by omega
    unfold spin_pc spin_action
    rw [if_neg n1, if_neg n2, if_neg n1, if_neg n2, if_neg n3, if_neg n4, e1, e2]
    rcases hr with h | h | h | h
    · have h1 : (j + 1) % 4 = 1 := by omega
      simp [h, h1, spin_step]
    · have h1 : (j + 1) % 4 = 2 := by omega
      simp [h, h1, spin_step]
    · have h1 : (j + 1) % 4 = 3 := by omega
      simp [h, h1, spin_step]
    · have h1 : (j + 1) % 4 = 0 := by omega
      simp [h, h1, spin_step]

/-- Running `spin` for `n` actions from the point reached after `k` actions
performs the actions number `k`, ..., `k + n - 1`. -/
theorem spin_run_from (n : Nat) : ∀ k, run_steps spin_step n (spin_pc k) =
    ((List.range' k n).map spin_action, spin_pc (k + n)) := by
  induction n with
  | zero => intro k; rfl
  | succ n ih =>
    intro k
    rw [run_steps, spin_step_at k]
    simp only [ih (k + 1), List.range'_succ, List.map_cons]
    rw [Nat.add_assoc, Nat.add_comm 1 n]

/-- No program point that `spin` reaches is its end. -/
theorem spin_pc_not_returned (k : Nat) : spin_pc k ≠ SpinPc.returned := by
  unfold spin_pc
  repeat' split
  all_goals exact fun h => SpinPc.noConfusion h

/-- C17: the default fault handler `spin` never returns and shows a one-pin
distress pattern: its first action is `intr_disable()`, before any GPIO write;
it then sets `GPIO.DIR` to 0xfff0, once; and from then on the only values it
writes to `GPIO.OUT` are 0x4000 and 0, strictly alternating, each 0x4000
followed by `delay_loop(500000)` and each 0 followed by `delay_loop(100000)`.
The two output values differ in exactly one bit (bit 14), that bit lies in the
output mask 0xfff0, and the two delays are different. -/
theorem spin_distress_pattern :
    (∀ n, run_steps spin_step n SpinPc.entry = ((List.range n).map spin_action, spin_pc n)) ∧
    (∀ n, (run_steps spin_step n SpinPc.entry).1.length = n ∧
      (run_steps spin_step n SpinPc.entry).2 ≠ SpinPc.returned) ∧
    spin_action 0 = Event.call_intr_disable ∧
    spin_action 1 = Event.write Reg.GPIO_DIR 0xfff0 ∧
    (∀ j, spin_action (2 + 4 * j) = Event.write Reg.GPIO_OUT 0x4000 ∧
      spin_action (2 + 4 * j + 1) = Event.call_delay_loop 500000 ∧
      spin_action (2 + 4 * j + 2) = Event.write Reg.GPIO_OUT 0 ∧
      spin_action (2 + 4 * j + 3) = Event.call_delay_loop 100000) ∧
    (∀ k v, spin_action k = Event.write Reg.GPIO_DIR v → k = 1) ∧
    (∀ k v, spin_action k = Event.write Reg.GPIO_OUT v →
      2 ≤ k ∧ ((v = 0x4000 ∧ spin_action (k + 1) = Event.call_delay_loop 500000 ∧
          spin_action (k + 2) = Event.write Reg.GPIO_OUT 0) ∨
        (v = 0 ∧ spin_action (k + 1) = Event.call_delay_loop 100000 ∧
          spin_action (k + 2) = Event.write Reg.GPIO_OUT 0x4000))) ∧
    (∀ k, (0x4000 ^^^ 0).testBit k = decide (k = 14)) ∧
    (0xfff0).testBit 14 = true ∧
    (500000 : Nat) ≠ 100000 := by
  have hrun : ∀ n, run_steps spin_step n SpinPc.entry =
      ((List.range n).map spin_action, spin_pc n) := by
    intro n
    have h := spin_run_from n 0
    rw [Nat.zero_add, ← List.range_eq_range'] at h
    exact h
  have hcycle : ∀ j, spin_action (2 + 4 * j) = Event.write Reg.GPIO_OUT 0x4000 ∧
      spin_action (2 + 4 * j + 1) = Event.call_delay_loop 500000 ∧
      spin_action (2 + 4 * j + 2) = Event.write Reg.GPIO_OUT 0 ∧
      spin_action (2 + 4 * j + 3) = Event.call_delay_loop 100000 := by
    intro j
    have a0 : (2 + 4 * j - 2) % 4 = 0 := by omega
    have a1 : (2 + 4 * j + 1 - 2) % 4 = 1 := by omega
    have a2 : (2 + 4 * j + 2 - 2) % 4 = 2 := by omega
    have a3 : (2 + 4 * j + 3 - 2) % 4 = 3 := by omega
    refine ⟨?_, ?_, ?_, ?_⟩
    · unfold spin_action
      rw [if_neg (by omega), if_neg (by omega), if_pos a0]
    · unfold spin_action
      rw [if_neg (by omega), if_neg (by omega), if_neg (by omega), if_pos a1]
    · unfold spin_action
      rw [if_neg (by omega), if_neg (by omega), if_neg (by omega), if_neg (by omega), if_pos a2]
    · unfold spin_action
      rw [if_neg (by omega), if_neg (by omega), if_neg (by omega), if_neg (by omega),
        if_neg (by omega)]
  refine ⟨hrun, ?_, rfl, rfl, hcycle, ?_, ?_, ?_, by decide, by decide⟩
  · intro n
    rw [hrun n]
    exact ⟨by simp, spin_pc_not_returned n⟩
  · intro k v h
    by_contra hk
    rcases k with _ | _ | i
    · cases h
    · exact hk rfl
    · obtain ⟨j, r, hr, hi⟩ : ∃ j r, r < 4 ∧ i + 1 + 1 = 2 + 4 * j + r :=
        ⟨i / 4, i % 4, Nat.mod_lt _ (by decide), by omega⟩
      rw [hi] at h
      obtain ⟨c0, c1, c2, c3⟩ := hcycle j
      interval_cases r
      · rw [Nat.add_zero, c0] at h; cases h
      · rw [c1] at h; cases h
      · rw [c2] at h; cases h
      · rw [c3] at h; cases h
  · intro k v h
    rcases k with _ | _ | i
    · cases h
    · cases h
    · obtain ⟨j, r, hr, hi⟩ : ∃ j r, r < 4 ∧ i + 1 + 1 = 2 + 4 * j + r :=
        ⟨i / 4, i % 4, Nat.mod_lt _ (by decide), by omega⟩
      refine ⟨by omega, ?_⟩
      rw [hi] at h ⊢
      obtain ⟨c0, c1, c2, c3⟩ := hcycle j
      obtain ⟨d0, _, _, _⟩ := hcycle (j + 1)
      interval_cases r
      · rw [Nat.add_zero] at h ⊢
        rw [c0] at h
        cases h
        exact Or.inl ⟨rfl, c1, c2⟩
      · rw [c1] at h; cases h
      · rw [c2] at h
        cases h
        refine Or.inr ⟨rfl, c3, ?_⟩
        have e : 2 + 4 * j + 2 + 2 = 2 + 4 * (j + 1) := by omega
        rw [e]
        exact d0
      · rw [c3] at h; cases h
  · intro k
    have e : (0x4000 ^^^ 0 : Nat) = 2 ^ 14 := by decide
    rw [e]
    exact testBit_two_pow_eq 14 k

/-- Witness for C17: the first ten actions of `spin`. -/
theorem spin_distress_pattern_witness :
    run_steps spin_step 10 SpinPc.entry =
      ([Event.call_intr_disable, Event.write Reg.GPIO_DIR 0xfff0,
        Event.write Reg.GPIO_OUT 0x4000, Event.call_delay_loop 500000,
        Event.write Reg.GPIO_OUT 0, Event.call_delay_loop 100000,
        Event.write Reg.GPIO_OUT 0x4000, Event.call_delay_loop 500000,
        Event.write Reg.GPIO_OUT 0, Event.call_delay_loop 100000], SpinPc.led_on) :=
  (spin_distress_pattern.1 10).trans (by decide)

/-- The loop of `delay_loop` ends, given fuel, after `t` runs of its body. -/
theorem delay_while_returns (t : Nat) : ∀ (fuel done : Nat), t < WORD → t < fuel →
    delay_while fuel t done = some (done + t) := by
  induction t with
  | zero =>
    intro fuel done _ hf
    cases fuel with
    | zero => exact absurd hf (Nat.lt_irrefl 0)
    | succ f => rw [delay_while, if_neg (Nat.lt_irrefl 0)]; rfl
  | succ t ih =>
    intro fuel done ht hf
    cases fuel with
    | zero => exact absurd hf (Nat.not_lt_zero _)
    | succ f =>
      have e : (t + 1 + (WORD - 1)) % WORD = t := by
        unfold WORD at *
        omega
      have step : delay_while (f + 1) (t + 1) done =
          delay_while f ((t + 1 + (WORD - 1)) % WORD) (done + 1) := by
        simp only [delay_while]
        exact if_pos (Nat.succ_pos t)
      have h3 : delay_while f ((t + 1 + (WORD - 1)) % WORD) (done + 1) =
          delay_while f t (done + 1) := congrArg (fun x => delay_while f x (done + 1)) e
      have h2 := ih f (done + 1) (by omega) (by omega)
      have h4 : done + 1 + t = done + (t + 1) := by omega
      exact step.trans (h3.trans (h2.trans (congrArg some h4)))

/-- C18: `delay_loop(usecs)` terminates for every `usecs`, and its loop body
runs exactly `(2 * usecs) mod 2^32` times: two iterations per requested
microsecond, that is exactly `2 * usecs` iterations, for every
`usecs < 2^31`, and no iteration for `usecs = 0`. -/
theorem delay_loop_iterations (usecs : Nat) :
    (∃ fuel0, ∀ fuel, fuel0 ≤ fuel →
      delay_loop fuel usecs = some ((2 * usecs) % 2 ^ 32)) ∧
    (usecs < 2 ^ 31 → ∃ fuel0, ∀ fuel, fuel0 ≤ fuel →
      delay_loop fuel usecs = some (2 * usecs)) ∧
    (∃ fuel0, ∀ fuel, fuel0 ≤ fuel → delay_loop fuel 0 = some 0) := by
  have hmain : ∀ u : Nat, ∀ fuel, (2 * u) % WORD + 1 ≤ fuel →
      delay_loop fuel u = some ((2 * u) % WORD) := by
    intro u fuel hf
    have e : (u <<< 1) % WORD = (2 * u) % WORD := by
      rw [Nat.shiftLeft_eq]
      congr 1
      omega
    have hlt : (2 * u) % WORD < WORD := Nat.mod_lt _ (by decide)
    have h := delay_while_returns ((2 * u) % WORD) fuel 0 hlt (by omega)
    rw [Nat.zero_add] at h
    unfold delay_loop
    exact (congrArg (fun x => delay_while fuel x 0) e).trans h
  refine ⟨⟨_, hmain usecs⟩, ?_, ⟨_, hmain 0⟩⟩
  intro hlt
  have e : (2 * usecs) % WORD = 2 * usecs := Nat.mod_eq_of_lt (by unfold WORD; omega)
  refine ⟨(2 * usecs) % WORD + 1, ?_⟩
  intro fuel hf
  exact (hmain usecs fuel hf).trans (congrArg some e)

/-- Witness for C18: three microseconds are six iterations. -/
theorem delay_loop_iterations_witness :
    (3 : Nat) < 2 ^ 31 ∧
    ∃ fuel0, ∀ fuel, fuel0 ≤ fuel → delay_loop fuel 3 = some (2 * 3) :=
  ⟨by decide, (delay_loop_iterations 3).2.1 (by decide)⟩

/-! ## Frame of the memory primitives -/

/-- C19: for ranges without wrap-around, each of `memcpy(dest, src, n)`,
`memmove(dest, src, n)` and `memset(dest, x, n)` leaves every byte whose
address is outside `[dest, dest+n)` unchanged and returns exactly the pointer
`dest` it was given, and `memcmp` changes no byte at all: all its memory
accesses are loads. -/
theorem memory_primitives_frame (m : Mem) (dest src x n : Nat) (hd : dest + n ≤ WORD) :
    (∀ a, (a < dest ∨ dest + n ≤ a) →
      (memcpy m dest src n).1 a = m a ∧
      (memmove m dest src n).1 a = m a ∧
      (memset m dest x n).1 a = m a) ∧
    (memcpy m dest src n).2 = dest ∧
    (memmove m dest src n).2 = dest ∧
    (memset m dest x n).2 = dest ∧
    (∀ (pp qq : Nat) (k : Int) (y : Access),
      y ∈ memcmp_trace m pp qq k → ∃ a, y = Access.load a) := by
  refine ⟨?_, rfl, ?_, rfl, ?_⟩
  · intro a ha
    cases n with
    | zero =>
      refine ⟨rfl, ?_, rfl⟩
      unfold memmove
      split <;> rfl
    | succ k =>
      have hdlt : dest < WORD := by omega
      have hout : ∀ j, j < k + 1 → a ≠ ptrAdd dest j := by
        intro j hj
        rw [ptrAdd_of_lt dest j (by omega)]
        omega
      refine ⟨copy_up_frame (k + 1) dest src m a hdlt hout, ?_,
        fill_up_frame (k + 1) dest x m a hdlt hout⟩
      unfold memmove
      split
      · exact copy_up_frame (k + 1) dest src m a hdlt hout
      · exact copy_down_frame dest src (k + 1) m a hout
  · unfold memmove
    split <;> rfl
  · intro pp qq k y hy
    exact memcmp_loop_trace_loads k.toNat pp qq m y hy

/-- Witness for C19: the byte just below and the byte just above a range of 4
bytes at 0x102 of the sample memory. -/
theorem memory_primitives_frame_witness :
    (0x102 + 4 ≤ WORD) ∧
    ((memcpy sample_mem 0x102 0x100 4).1 0x101 = sample_mem 0x101 ∧
      (memmove sample_mem 0x102 0x100 4).1 0x101 = sample_mem 0x101 ∧
      (memset sample_mem 0x102 7 4).1 0x101 = sample_mem 0x101) ∧
    ((memcpy sample_mem 0x102 0x100 4).1 0x106 = sample_mem 0x106 ∧
      (memmove sample_mem 0x102 0x100 4).1 0x106 = sample_mem 0x106 ∧
      (memset sample_mem 0x102 7 4).1 0x106 = sample_mem 0x106) :=
  ⟨by decide,
   (memory_primitives_frame sample_mem 0x102 0x100 7 4 (by decide)).1 0x101 (by decide),
   (memory_primitives_frame sample_mem 0x102 0x100 7 4 (by decide)).1 0x106 (by decide)⟩

/-! ## Priority bytes of distinct lines -/

/-- Inside the array, `word_at` is the list lookup. -/
theorem word_at_nonneg (a : List Nat) (i : Int) (h0 : 0 ≤ i) : word_at a i = a[i.toNat]? := by
  unfold word_at
  rw [if_pos h0]

/-- Setting byte lane `n` of word `i` of a register array leaves byte lane `k`
of word `j` as it was, unless `j = i` and `k = n`. -/
theorem set_lane_other (l : List Nat) (i j n k p w : Nat) (hw : l[i]? = some w)
    (hn : n < 4) (hk : k < 4) (hne : i ≠ j ∨ k ≠ n) :
    ((l.set i (SET_BYTE w n p))[j]?).map (fun v => byte_lane v k) =
      (l[j]?).map (fun v => byte_lane v k) := by
  by_cases hij : i = j
  · subst hij
    have hk2 : k ≠ n := by
      rcases hne with h | h
      · exact absurd rfl h
      · exact h
    have hlen : i < l.length := (List.getElem?_eq_some_iff.mp hw).1
    rw [List.getElem?_set, if_pos rfl, if_pos hlen, hw]
    simp only [Option.map_some']
    rw [byte_lane_SET_BYTE w n p k hn hk, if_neg hk2]
  · rw [List.getElem?_set_ne hij]

/-- Setting byte lane `n` of word `i` makes that lane the low 8 bits of the
value. -/
theorem set_lane_same (l : List Nat) (i n p w : Nat) (hw : l[i]? = some w) (hn : n < 4) :
    ((l.set i (SET_BYTE w n p))[i]?).map (fun v => byte_lane v n) = some (p % 256) := by
  have hlen : i < l.length := (List.getElem?_eq_some_iff.mp hw).1
  rw [List.getElem?_set, if_pos rfl, if_pos hlen]
  simp only [Option.map_some']
  rw [byte_lane_SET_BYTE w n p n hn hn, if_pos rfl]

/-- The target of a core exception line: block `SCB.SHPR`. -/
theorem irq_target_core (line : Int) (h : line < 0) :
    irq_target line = (true, (line + 12) / 4, line % 4) := by
  unfold irq_target
  rw [if_pos h, int_shr_two, int_and_three]

/-- The target of a peripheral line: block `NVIC.IPR`. -/
theorem irq_target_peripheral (line : Int) (h : 0 ≤ line) :
    irq_target line = (false, line / 4, line % 4) := by
  unfold irq_target
  rw [if_neg (not_lt.mpr h), int_shr_two, int_and_three]

/-- The priority byte of a core exception line. -/
theorem priority_of_core (d : Dev) (line : Int) (h : line < 0) (h12 : -12 ≤ line) :
    priority_of d line =
      (d.SHPR[((line + 12) / 4).toNat]?).map (fun v => byte_lane v (line % 4).toNat) := by
  unfold priority_of
  rw [if_pos h, int_shr_two, int_and_three, word_at_nonneg _ _ (by omega)]

/-- The priority byte of a peripheral line. -/
theorem priority_of_peripheral (d : Dev) (line : Int) (h : 0 ≤ line) :
    priority_of d line =
      (d.IPR[(line / 4).toNat]?).map (fun v => byte_lane v (line % 4).toNat) := by
  unfold priority_of
  rw [if_neg (not_lt.mpr h), int_shr_two, int_and_three, word_at_nonneg _ _ (by omega)]

/-- C20: no two interrupt lines share a priority byte: the map sending a line
in `[-12, 31]` to the register block, word index and byte lane that
`irq_priority` writes (`SCB.SHPR`, `(line + 12) >> 2`, `line & 3` for
`line < 0`; `NVIC.IPR`, `line >> 2`, `line & 3` for `line >= 0`) is injective,
so for two distinct lines `l1`, `l2` in that range, on a device with three
`SHPR` words and eight `IPR` words, `irq_priority(l1, p)` sets the priority
byte of `l1` and does not change the priority byte of `l2`. -/
theorem priority_bytes_not_shared :
    (∀ l1 l2 : Int, -12 ≤ l1 → l1 ≤ 31 → -12 ≤ l2 → l2 ≤ 31 →
      irq_target l1 = irq_target l2 → l1 = l2) ∧
    (∀ (d : Dev) (line : Int) (p : Nat) (d1 : Dev) (evs : List Event),
      irq_priority d line p = some (d1, evs) →
      ∃ w, evs =
        [Event.read (if (irq_target line).1 then Reg.SCB_SHPR (irq_target line).2.1.toNat
            else Reg.NVIC_IPR (irq_target line).2.1.toNat) w,
         Event.write (if (irq_target line).1 then Reg.SCB_SHPR (irq_target line).2.1.toNat
            else Reg.NVIC_IPR (irq_target line).2.1.toNat)
           (SET_BYTE w (irq_target line).2.2.toNat p)]) ∧
    (∀ (d : Dev) (l1 l2 : Int) (p : Nat), -12 ≤ l1 → l1 ≤ 31 → -12 ≤ l2 → l2 ≤ 31 →
      l1 ≠ l2 → d.SHPR.length = 3 → d.IPR.length = 8 →
      ∃ d1 evs, irq_priority d l1 p = some (d1, evs) ∧
        priority_of d1 l1 = some (p % 256) ∧
        priority_of d1 l2 = priority_of d l2 ∧
        (priority_of d l2).isSome = true) := by
  refine ⟨?_, ?_, ?_⟩
  · intro l1 l2 h1 h1b h2 h2b heq
    by_cases n1 : l1 < 0 <;> by_cases n2 : l2 < 0
    · rw [irq_target_core l1 n1, irq_target_core l2 n2] at heq
      simp only [Prod.mk.injEq, true_and] at heq
      omega
    · rw [irq_target_core l1 n1, irq_target_peripheral l2 (by omega)] at heq
      simp at heq
    · rw [irq_target_peripheral l1 (by omega), irq_target_core l2 n2] at heq
      simp at heq
    · rw [irq_target_peripheral l1 (by omega), irq_target_peripheral l2 (by omega)] at heq
      simp only [Prod.mk.injEq, true_and] at heq
      omega
  · intro d line p d1 evs h
    unfold irq_priority at h
    unfold irq_target
    split at h
    · rename_i hneg
      rw [if_pos hneg]
      simp only
      cases hw : word_at d.SHPR (int_shr (line + 12) 2) with
      | none => simp [hw] at h
      | some w =>
        simp only [hw, Option.some.injEq, Prod.mk.injEq] at h
        exact ⟨w, by rw [← h.2]; simp⟩
    · rename_i hneg
      rw [if_neg hneg]
      simp only
      cases hw : word_at d.IPR (int_shr line 2) with
      | none => simp [hw] at h
      | some w =>
        simp only [hw, Option.some.injEq, Prod.mk.injEq] at h
        exact ⟨w, by rw [← h.2]; simp⟩
  · intro d l1 l2 p h1 h1b h2 h2b hne hS hI
    have hlane1 := lane_lt_four l1
    have hlane2 := lane_lt_four l2
    by_cases n1 : l1 < 0
    · have hi1 : ((l1 + 12) / 4).toNat < d.SHPR.length := by omega
      obtain ⟨w, hw⟩ : ∃ w, d.SHPR[((l1 + 12) / 4).toNat]? = some w :=
        ⟨_, List.getElem?_eq_getElem hi1⟩
      have hw2 : word_at d.SHPR ((l1 + 12) / 4) = some w := by
        rw [word_at_nonneg _ _ (by omega)]
        exact hw
      refine ⟨_, _, irq_priority_core d l1 p w n1 hw2, ?_, ?_, ?_⟩
      · rw [priority_of_core _ l1 n1 h1]
        exact set_lane_same d.SHPR _ _ p w hw hlane1
      · by_cases n2 : l2 < 0
        · rw [priority_of_core _ l2 n2 h2, priority_of_core d l2 n2 h2]
          exact set_lane_other d.SHPR _ _ _ _ p w hw hlane1 hlane2 (by omega)
        · rw [priority_of_peripheral _ l2 (by omega), priority_of_peripheral d l2 (by omega)]
      · by_cases n2 : l2 < 0
        · have hi2 : ((l2 + 12) / 4).toNat < d.SHPR.length := by omega
          rw [priority_of_core d l2 n2 h2, List.getElem?_eq_getElem hi2]
          rfl
        · have hi2 : (l2 / 4).toNat < d.IPR.length := by omega
          rw [priority_of_peripheral d l2 (by omega), List.getElem?_eq_getElem hi2]
          rfl
    · have hi1 : (l1 / 4).toNat < d.IPR.length := by omega
      obtain ⟨w, hw⟩ : ∃ w, d.IPR[(l1 / 4).toNat]? = some w :=
        ⟨_, List.getElem?_eq_getElem hi1⟩
      have hw2 : word_at d.IPR (l1 / 4) = some w := by
        rw [word_at_nonneg _ _ (by omega)]
        exact hw
      refine ⟨_, _, irq_priority_peripheral d l1 p w (by omega) hw2, ?_, ?_, ?_⟩
      · rw [priority_of_peripheral _ l1 (by omega)]
        exact set_lane_same d.IPR _ _ p w hw hlane1
      · by_cases n2 : l2 < 0
        · rw [priority_of_core _ l2 n2 h2, priority_of_core d l2 n2 h2]
        · rw [priority_of_peripheral _ l2 (by omega), priority_of_peripheral d l2 (by omega)]
          exact set_lane_other d.IPR _ _ _ _ p w hw hlane1 hlane2 (by omega)
      · by_cases n2 : l2 < 0
        · have hi2 : ((l2 + 12) / 4).toNat < d.SHPR.length := by omega
          rw [priority_of_core d l2 n2 h2, List.getElem?_eq_getElem hi2]
          rfl
        · have hi2 : (l2 / 4).toNat < d.IPR.length := by omega
          rw [priority_of_peripheral d l2 (by omega), List.getElem?_eq_getElem hi2]
          rfl

/-- Witness for C20: lines -2 and -1 share the word `SCB.SHPR[2]`; setting the
priority of line -2 on the sample device leaves the priority byte of line -1
(0x99) as it was. -/
theorem priority_bytes_not_shared_witness :
    ((-12 : Int) ≤ -2 ∧ (-2 : Int) ≤ 31 ∧ (-12 : Int) ≤ -1 ∧ (-1 : Int) ≤ 31 ∧
      (-2 : Int) ≠ -1 ∧ sample_dev.SHPR.length = 3 ∧ sample_dev.IPR.length = 8) ∧
    priority_of sample_dev (-1) = some 0x99 ∧
    ∃ d1 evs, irq_priority sample_dev (-2) 0x40 = some (d1, evs) ∧
      priority_of d1 (-2) = some (0x40 % 256) ∧
      priority_of d1 (-1) = priority_of sample_dev (-1) ∧
      (priority_of sample_dev (-1)).isSome = true :=
  ⟨by decide, by decide,
   priority_bytes_not_shared.2.2 sample_dev (-2) (-1) 0x40 (by decide) (by decide) (by decide)
     (by decide) (by decide) (by decide) (by decide)⟩

end Startup
